import Mathlib

/-!
# Physical memory manager of the biscuit kernel (`src/mem/mem.go`)

A shallow embedding of the frame table, the two intrusive free lists, the
reference counter, the direct-map translator, the allocation API and the
page-table accounting walk.

Conventions of the embedding
* `uint32`, `uintptr` and `Pa_t` values are natural numbers; every arithmetic
  step of the source that can wrap carries its explicit `% 2^32` / `% 2^64`.
* `int32` reference counts are integers; `atomic.AddInt32` wraps through
  `wrap32`.
* A `*Pg_t` is the virtual address it holds (`nil` is `0`); dereferencing the
  nil pointer is a run-time panic, any other pointer refers to a page of `ram`.
* A Go `panic` (explicit, or the runtime's index-out-of-range check on
  `pgs[i]` and its nil-pointer check) is the `fatal` outcome, which records the
  state reached when the panic fired.  A normal return is `ret`.
* The methods are run on the singleton `Physmem`, so the receiver `phys` and
  the package variable read by `_refaddr` are one object.  Operations are
  executed one at a time; `Lock`/`Unlock` of the embedded mutex have no effect
  on a sequential run and are not represented.
* Loops over a free list and the recursion of `_pmcount` need not terminate;
  they are run with a fuel bound and yield `none` when the fuel does not
  suffice.
-/

namespace Mem

/-! ## Constants and types -/

def PGSHIFT : Nat := 12
def PGSIZE : Nat := 2 ^ PGSHIFT
def PGOFFSET : Nat := 0xfff
/-- The complement of `PGOFFSET` in a 64-bit word. -/
def PGMASK : Nat := 2 ^ 64 - 1 - PGOFFSET

/-- The free-list terminator `^uint32(0)`. -/
def NOPG : Nat := 2 ^ 32 - 1

/-- The physical-address ceiling `1<<39` of the direct map. -/
def DMAPLIM : Nat := 2 ^ 39

/-- A page of 512 machine words. -/
abbrev Pg_t := Fin 512 → Int

structure Physpg_t where
  refcnt : Int
  nexti : Nat
deriving DecidableEq

structure Physmem_t where
  pgs : List Physpg_t
  startn : Nat
  freei : Nat
  pmaps : Nat
  dmapinit : Bool
  _vdirect : Nat
deriving DecidableEq

/-- The package-level variables: the singleton `Physmem`, the pointer `Zeropg`
and the memory the `*Pg_t` pointers refer to (`ram v` is the page stored at
the non-nil virtual address `v`). -/
structure World where
  Physmem : Physmem_t
  Zeropg : Nat
  ram : Nat → Pg_t

/-- Result of running an operation on a state of type `σ`. -/
inductive Outcome (σ : Type) (α : Type) where
  | ret : α → σ → Outcome σ α
  | fatal : String → σ → Outcome σ α
deriving DecidableEq

/-- Wrap an integer into the `int32` range. -/
def wrap32 (x : Int) : Int := (x + 2 ^ 31) % 2 ^ 32 - 2 ^ 31

/-- Modelled from the spec: `util.Rounddown` (package `util` is not part of the
sources at hand) is `page_align_down`, the largest multiple of `b` not above
`v`. -/
def Rounddown (v b : Nat) : Nat := v - v % b

/-- The two list heads a `fl *uint32` argument can point at. -/
inductive Flist where
  | freei
  | pmaps
deriving DecidableEq

/-- Read `*fl`. -/
def Physmem_t.head (phys : Physmem_t) : Flist → Nat
  | .freei => phys.freei
  | .pmaps => phys.pmaps

/-- Write `*fl = v`. -/
def Physmem_t.setHead (phys : Physmem_t) : Flist → Nat → Physmem_t
  | .freei, v => { phys with freei := v }
  | .pmaps, v => { phys with pmaps := v }

/-! ## Frame table addressing -/

def _pg2pgn (p_pg : Nat) : Nat := (p_pg / 2 ^ PGSHIFT) % 2 ^ 32

/-- `_refaddr`: the index of the frame descriptor whose `refcnt` is addressed;
the selector `pgs[idx]` panics when `idx` is out of range. -/
def _refaddr (phys : Physmem_t) (p_pg : Nat) : Except String Nat :=
  let idx := (_pg2pgn p_pg + (2 ^ 32 - phys.startn % 2 ^ 32)) % 2 ^ 32
  if idx < phys.pgs.length then .ok idx else .error "index out of range"

/-- `atomic.AddInt32(&pgs[idx].refcnt, delta)`: the table after the addition
and the new value. -/
def AddInt32 (pgs : List Physpg_t) (idx : Nat) (delta : Int) : List Physpg_t × Int :=
  match pgs[idx]? with
  | some pg =>
    let c := wrap32 (pg.refcnt + delta)
    (pgs.set idx { pg with refcnt := c }, c)
  | none => (pgs, 0)

/-! ## Reference counter -/

def Refcnt (phys : Physmem_t) (p_pg : Nat) : Outcome Physmem_t Int :=
  match _refaddr phys p_pg with
  | .error e => .fatal e phys
  | .ok ref =>
    let (pgs1, c) := AddInt32 phys.pgs ref 1
    .ret c { phys with pgs := pgs1 }

def Refup (phys : Physmem_t) (p_pg : Nat) : Outcome Physmem_t Unit :=
  match _refaddr phys p_pg with
  | .error e => .fatal e phys
  | .ok ref =>
    let (pgs1, c) := AddInt32 phys.pgs ref 1
    if c ≤ 0 then .fatal "wut" { phys with pgs := pgs1 }
    else .ret () { phys with pgs := pgs1 }

def _refdec (phys : Physmem_t) (p_pg : Nat) : Outcome Physmem_t (Bool × Nat) :=
  match _refaddr phys p_pg with
  | .error e => .fatal e phys
  | .ok idx =>
    let (pgs1, c) := AddInt32 phys.pgs idx (-1)
    if c < 0 then .fatal "wut" { phys with pgs := pgs1 }
    else .ret (decide (c = 0), idx) { phys with pgs := pgs1 }

/-- Store `v` in `pgs[idx].nexti` (callers have already bounds-checked `idx`). -/
def setNexti (pgs : List Physpg_t) (idx v : Nat) : List Physpg_t :=
  match pgs[idx]? with
  | some pg => pgs.set idx { pg with nexti := v }
  | none => pgs

def _reffree (phys : Physmem_t) (idx : Nat) : Outcome Physmem_t Unit :=
  if idx < phys.pgs.length then
    let onext := phys.freei
    .ret () { phys with pgs := setNexti phys.pgs idx onext, freei := idx }
  else .fatal "index out of range" phys

def Refdown (phys : Physmem_t) (p_pg : Nat) : Outcome Physmem_t Bool :=
  match _refdec phys p_pg with
  | .fatal e s => .fatal e s
  | .ret (add, idx) s =>
    if add then
      match _reffree s idx with
      | .fatal e s1 => .fatal e s1
      | .ret _ s1 => .ret true s1
    else .ret false s

/-! ## Direct-map translator -/

def Dmap (phys : Physmem_t) (p : Nat) : Except String Nat :=
  if p ≥ DMAPLIM then .error "direct map not large enough"
  else .ok ((phys._vdirect + Rounddown p PGSIZE) % 2 ^ 64)

def Dmap_v2p (phys : Physmem_t) (v : Nat) : Except String Nat :=
  if v ≤ DMAPLIM then .error "address isn't in the direct map"
  else .ok ((v + (2 ^ 64 - phys._vdirect % 2 ^ 64)) % 2 ^ 64)

/-! ## Free lists and the allocation API -/

def _phys_new (phys : Physmem_t) (fl : Flist) : Outcome Physmem_t (Nat × Nat × Bool) :=
  if !phys.dmapinit then .fatal "dmap not initted" phys
  else
    let ff := phys.head fl
    if ff ≠ NOPG then
      let p_pg := ((ff + phys.startn) % 2 ^ 32 * 2 ^ PGSHIFT) % 2 ^ 64
      match phys.pgs[ff]? with
      | none => .fatal "index out of range" phys
      | some pg =>
        let phys1 := phys.setHead fl pg.nexti
        if pg.refcnt < 0 then .fatal "negative ref count" phys1
        else
          match Dmap phys1 p_pg with
          | .error e => .fatal e phys1
          | .ok v => .ret (v, p_pg, true) phys1
    else .ret (0, 0, false) phys

def _refpg_new (phys : Physmem_t) : Outcome Physmem_t (Nat × Nat × Bool) :=
  _phys_new phys .freei

def Refpg_new_nozero (phys : Physmem_t) : Outcome Physmem_t (Nat × Nat × Bool) :=
  match _refpg_new phys with
  | .fatal e s => .fatal e s
  | .ret (pg, p_pg, ok) s =>
    if !ok then .ret (0, 0, false) s else .ret (pg, p_pg, true) s

/-- The message of the run-time panic raised by a nil-pointer dereference. -/
def nilDeref : String := "invalid memory address or nil pointer dereference"

/-- The assignment `*dst = *src` of one page (both pointers non-nil). -/
def copyPg (ram : Nat → Pg_t) (dst src : Nat) : Nat → Pg_t :=
  fun a => if a = dst then ram src else ram a

/-- `Refpg_new`: after a successful pop the assignment `*pg = *Zeropg`
dereferences both pointers, a run-time panic when either is nil; the frame is
already unlinked by then. -/
def Refpg_new (w : World) : Outcome World (Nat × Nat × Bool) :=
  if !w.Physmem.dmapinit then .fatal "refpg_new" w
  else
    match _refpg_new w.Physmem with
    | .fatal e s => .fatal e { w with Physmem := s }
    | .ret (pg, p_pg, ok) s =>
      if !ok then .ret (0, 0, false) { w with Physmem := s }
      else if w.Zeropg = 0 ∨ pg = 0 then .fatal nilDeref { w with Physmem := s }
      else .ret (pg, p_pg, true) { w with Physmem := s, ram := copyPg w.ram pg w.Zeropg }

def Pmap_new (w : World) : Outcome World (Nat × Nat × Bool) :=
  match _phys_new w.Physmem .pmaps with
  | .fatal e s => .fatal e { w with Physmem := s }
  | .ret (a, b, ok) s =>
    if ok then .ret (a, b, true) { w with Physmem := s }
    else Refpg_new { w with Physmem := s }

def _phys_put (phys : Physmem_t) (fl : Flist) (p_pg : Nat) : Outcome Physmem_t Unit :=
  match _refdec phys p_pg with
  | .fatal e s => .fatal e s
  | .ret (add, idx) s =>
    if add then
      if idx < s.pgs.length then
        .ret () ((({ s with pgs := setNexti s.pgs idx (s.head fl) } : Physmem_t)).setHead fl idx)
      else .fatal "index out of range" s
    else .ret () s

def Dec_pmap (phys : Physmem_t) (p_pmap : Nat) : Outcome Physmem_t Unit :=
  _phys_put phys .pmaps p_pmap

/-! ## Predicates used in the statements -/

/-- Every frame descriptor of the table has a non-negative refcount. -/
def Nonneg (pgs : List Physpg_t) : Prop := ∀ pg ∈ pgs, 0 ≤ pg.refcnt

instance (pgs : List Physpg_t) : Decidable (Nonneg pgs) := by
  unfold Nonneg; infer_instance

/-- The state an outcome ends in, normal or fatal. -/
def Outcome.state {σ α : Type} : Outcome σ α → σ
  | .ret _ s => s
  | .fatal _ s => s

/-- `Chain pgs h l`: starting at head `h` and following the `nexti` links in
`pgs`, the frames met are exactly `l`, in order, and the walk then reaches the
terminator `NOPG`. -/
def Chain (pgs : List Physpg_t) : Nat → List Nat → Prop
  | h, [] => h = NOPG
  | h, i :: l => h = i ∧ i ≠ NOPG ∧ ∃ pg, pgs[i]? = some pg ∧ Chain pgs pg.nexti l

/-- The physical address `Pa_t(i + startn) << PGSHIFT` of frame `i`. -/
def frameaddr (phys : Physmem_t) (i : Nat) : Nat := (i + phys.startn) % 2 ^ 32 * 4096

/-- `n` successive calls of `Refpg_new_nozero`, collecting the results. -/
def allocN : Nat → Physmem_t → Outcome Physmem_t (List (Nat × Nat × Bool))
  | 0, s => .ret [] s
  | n + 1, s =>
    match Refpg_new_nozero s with
    | .fatal e s1 => .fatal e s1
    | .ret r s1 =>
      match allocN n s1 with
      | .fatal e s2 => .fatal e s2
      | .ret rs s2 => .ret (r :: rs) s2

/-- The counting loop of `Pgcount` over the list starting at `i`
(`for i := freei; i != ^uint32(0); i = pgs[i].nexti { r1++ }`), run for at most
`fuel` iterations: `none` when the fuel runs out before the terminator is
reached, a panic when a link is out of range. -/
def Pgcount_r1 (pgs : List Physpg_t) : Nat → Nat → Nat → Option (Except String Nat)
  | 0, _, _ => none
  | fuel + 1, i, r1 =>
    if i ≠ NOPG then
      match pgs[i]? with
      | none => some (.error "index out of range")
      | some pg => Pgcount_r1 pgs fuel pg.nexti (r1 + 1)
    else some (.ok r1)

/-- Number of frames of the table with refcount `> 0`. -/
def owned (pgs : List Physpg_t) : Nat := pgs.countP fun pg => decide (0 < pg.refcnt)

/-- The operations of an allocate/free history.  An allocation that takes
ownership is the allocator call followed, on success, by `Refup` of the frame
it returned (the caller's increment required by the doc comment of
`Refpg_new`); a free is `Refdown`. -/
inductive Op where
  | newZero
  | newRaw
  | free (p : Nat)

def step (w : World) : Op → Outcome World Unit
  | .newZero =>
    match Refpg_new w with
    | .fatal e s => .fatal e s
    | .ret (_, p_pg, ok) s =>
      if ok then
        match Refup s.Physmem p_pg with
        | .fatal e s1 => .fatal e { s with Physmem := s1 }
        | .ret _ s1 => .ret () { s with Physmem := s1 }
      else .ret () s
  | .newRaw =>
    match Refpg_new_nozero w.Physmem with
    | .fatal e s => .fatal e { w with Physmem := s }
    | .ret (_, p_pg, ok) s =>
      if ok then
        match Refup s p_pg with
        | .fatal e s1 => .fatal e { w with Physmem := s1 }
        | .ret _ s1 => .ret () { w with Physmem := s1 }
      else .ret () { w with Physmem := s }
  | .free p =>
    match Refdown w.Physmem p with
    | .fatal e s => .fatal e { w with Physmem := s }
    | .ret _ s => .ret () { w with Physmem := s }

def run : List Op → World → Outcome World Unit
  | [], w => .ret () w
  | op :: ops, w =>
    match step w op with
    | .fatal e s => .fatal e s
    | .ret _ s => run ops s

/-- The conservation invariant of an `N`-frame table: the general free list is
a chain `l`; every refcount is a non-negative `int32`; a frame is on the chain
exactly when its refcount is `0`; and the chain length plus the number of
owned frames is `N`. -/
def Conserved (N : Nat) (phys : Physmem_t) : Prop :=
  phys.pgs.length = N ∧ N ≤ NOPG ∧
  ∃ l, Chain phys.pgs phys.freei l ∧
    (∀ i pg, phys.pgs[i]? = some pg →
      0 ≤ pg.refcnt ∧ pg.refcnt < 2 ^ 31 ∧ (i ∈ l ↔ pg.refcnt = 0)) ∧
    l.length + owned phys.pgs = N

/-- Apply `f` to the state an outcome ends in. -/
def Outcome.mapState {σ α : Type} (f : σ → σ) : Outcome σ α → Outcome σ α
  | .ret a s => .ret a (f s)
  | .fatal e s => .fatal e (f s)

/-- A `[]uint8` obtained by slicing a byte page: the bytes `[off, off + len)`
of the frame at pointer `pg`. -/
structure Byteview where
  pg : Nat
  off : Nat
  len : Nat
deriving DecidableEq

/-- `Dmap8`: `Pg2bytes` reinterprets the frame pointer, and the slice
expression `bpg[off:]` of the `[PGSIZE]uint8` keeps the bytes from `off` to the
end (it panics when `bpg` is nil and when `off` exceeds the array length). -/
def Dmap8 (phys : Physmem_t) (p : Nat) : Except String Byteview :=
  match Dmap phys p with
  | .error e => .error e
  | .ok pg =>
    let off := p &&& PGOFFSET
    if pg = 0 then .error nilDeref
    else if off ≤ PGSIZE then .ok ⟨pg, off, PGSIZE - off⟩
    else .error "slice bounds out of range"

/-- The table is well formed for allocation: every refcount is `≥ 0` and each
list head and each link is the terminator or a valid table index. -/
def TableOk (phys : Physmem_t) : Prop :=
  Nonneg phys.pgs ∧
  (phys.freei = NOPG ∨ phys.freei < phys.pgs.length) ∧
  (phys.pmaps = NOPG ∨ phys.pmaps < phys.pgs.length) ∧
  ∀ pg ∈ phys.pgs, pg.nexti = NOPG ∨ pg.nexti < phys.pgs.length

/-- Free-list well-formedness: the general list is the terminated (hence
acyclic) chain `l`, the page-table-root list is the terminated chain `m`, the
two share no frame, and every frame on either has refcount `0`. -/
def WellFormed (phys : Physmem_t) (l m : List Nat) : Prop :=
  Chain phys.pgs phys.freei l ∧ Chain phys.pgs phys.pmaps m ∧
  (∀ i ∈ l, i ∉ m) ∧
  ∀ i pg, i ∈ l ∨ i ∈ m → phys.pgs[i]? = some pg → pg.refcnt = 0

/-! ## Page-table accounting -/

def PTE_P : Nat := 1
def PTE_U : Nat := 4
def PTE_ADDR : Nat := PGMASK

/-- Wrap an integer into the range of Go's 64-bit `int`. -/
def wrap64 (x : Int) : Int := (x + 2 ^ 63) % 2 ^ 64 - 2 ^ 63

/-- `pg2pmap`: the page read as a `[512]Pa_t`, every word reinterpreted as an
unsigned 64-bit value. -/
def pg2pmap (pg : Pg_t) : List Nat :=
  (List.finRange 512).map fun i => Int.toNat (pg i % 2 ^ 64)

/-- The loop `for _, pte := range pg` of `_pmcount`; `call a` is the recursive
call `phys._pmcount(a, lev-1)`, `none` when it does not return. -/
def _pmcount_loop (call : Nat → Option (Except String Int)) :
    List Nat → Int → Option (Except String Int)
  | [], ret => some (.ok ret)
  | pte :: rest, ret =>
    if pte &&& PTE_U ≠ 0 ∧ pte &&& PTE_P ≠ 0 then
      match call (pte &&& PTE_ADDR) with
      | none => none
      | some (.error e) => some (.error e)
      | some (.ok c) => _pmcount_loop call rest (wrap64 (ret + wrap64 (1 + c)))
    else _pmcount_loop call rest ret

/-- `_pmcount`, with the depth of the recursion bounded by `fuel`: `none` when
the recursion is deeper than `fuel`, a panic when `Dmap` rejects an address or
returns the nil pointer, which `range pg` then dereferences. -/
def _pmcount (w : World) : Nat → Nat → Int → Option (Except String Int)
  | 0, _, _ => none
  | fuel + 1, pml4, lev =>
    match Dmap w.Physmem pml4 with
    | .error e => some (.error e)
    | .ok v =>
      if v = 0 then some (.error nilDeref)
      else _pmcount_loop (fun a => _pmcount w fuel a (wrap64 (lev - 1))) (pg2pmap (w.ram v)) 0

/-- The loop of `pmapcount` over the list starting at `ni`, run for at most
`fuel` iterations, every walk being allowed the recursion depth `wfuel`. -/
def pmapcount_loop (w : World) (wfuel : Nat) : Nat → Nat → Int → Option (Except String Int)
  | 0, _, _ => none
  | fuel + 1, ni, c =>
    if ni ≠ NOPG then
      match _pmcount w wfuel (((ni + w.Physmem.startn) % 2 ^ 32 * 2 ^ PGSHIFT) % 2 ^ 64) 4 with
      | none => none
      | some (.error e) => some (.error e)
      | some (.ok v) =>
        match w.Physmem.pgs[ni]? with
        | none => some (.error "index out of range")
        | some pg => pmapcount_loop w wfuel fuel pg.nexti (wrap64 (c + v))
    else some (.ok c)

def pmapcount (w : World) (fuel : Nat) : Option (Except String Int) :=
  pmapcount_loop w fuel fuel w.Physmem.pmaps 0

/-- `Pgcount`, every loop and the recursion of the walk bounded by `fuel`:
`none` when the fuel does not suffice. -/
def Pgcount (w : World) (fuel : Nat) : Option (Outcome World (Int × Int)) :=
  match Pgcount_r1 w.Physmem.pgs fuel w.Physmem.freei 0 with
  | none => none
  | some (.error e) => some (.fatal e w)
  | some (.ok r1) =>
    match pmapcount w fuel with
    | none => none
    | some (.error e) => some (.fatal e w)
    | some (.ok r2) => some (.ret (wrap64 r1, r2) w)

/-- Number of entries of a table with both the present and the user bit set. -/
def puCount (ptes : List Nat) : Nat :=
  ptes.countP fun pte => decide (pte &&& PTE_U ≠ 0 ∧ pte &&& PTE_P ≠ 0)

/-- Example memory: every table has at most its entry `0` set; with the direct
map at `0x44 << 39`, the table at physical `0` points (present, user) to the
page at `0x1000`, that page to `0x2000`, that one to `0x3000`, which is empty. -/
def chainMem : Nat → Pg_t := fun a i =>
  if i = 0 then
    if a = 0x44 * 2 ^ 39 then 0x1005
    else if a = 0x44 * 2 ^ 39 + 0x1000 then 0x2005
    else if a = 0x44 * 2 ^ 39 + 0x2000 then 0x3005
    else 0
  else 0

/-- Example memory: with the direct map at `0x44 << 39`, entry `0` of the
table at physical `0` is present, user and points back to that table. -/
def loopMem : Nat → Pg_t := fun a i =>
  if i = 0 then (if a = 0x44 * 2 ^ 39 then 0x5 else 0) else 0

/-- Example memory: with the direct map at `0x44 << 39`, the root table at
physical `0` has one present user entry, pointing to the empty table at
`0x1000`. -/
def rootMem : Nat → Pg_t := fun a i =>
  if i = 0 then (if a = 0x44 * 2 ^ 39 then 0x1005 else 0) else 0

/-! ## Direct-map translator: properties -/

theorem and_PGMASK (p : Nat) (hp : p < 2 ^ 64) : p &&& PGMASK = 4096 * (p / 4096) := by
  have h1 : PGMASK = 2 ^ 12 * (2 ^ 52 - 1) := by norm_num [PGMASK, PGOFFSET]
  have h2 : 4096 * (p / 4096) = 2 ^ 12 * (p >>> 12) := by
    rw [Nat.shiftRight_eq_div_pow]; norm_num
  rw [h1, h2]
  apply Nat.eq_of_testBit_eq
  intro j
  rw [Nat.testBit_and, Nat.testBit_mul_pow_two, Nat.testBit_mul_pow_two,
    Nat.testBit_two_pow_sub_one, Nat.testBit_shiftRight]
  by_cases hj : 12 ≤ j
  · have h4 : 12 + (j - 12) = j := by omega
    by_cases hj2 : j < 64
    · have h3 : j - 12 < 52 := by omega
      simp [hj, h4, h3]
    · have h5 : p.testBit j = false :=
        Nat.testBit_lt_two_pow
          (lt_of_lt_of_le hp (Nat.pow_le_pow_right (by norm_num) (by omega : 64 ≤ j)))
      simp [h5, h4]
  · simp [hj]

theorem Rounddown_PGSIZE (p : Nat) : Rounddown p PGSIZE = 4096 * (p / 4096) := by
  unfold Rounddown PGSIZE PGSHIFT
  omega

theorem Dmap_ok (phys : Physmem_t) (p : Nat) (hp : p < 2 ^ 39) :
    Dmap phys p = .ok ((phys._vdirect + 4096 * (p / 4096)) % 2 ^ 64) := by
  have h : ¬ p ≥ DMAPLIM := by unfold DMAPLIM; omega
  simp only [Dmap, h, if_false, Rounddown_PGSIZE]

theorem Dmap_error (phys : Physmem_t) (p : Nat) (hp : 2 ^ 39 ≤ p) :
    Dmap phys p = .error "direct map not large enough" := by
  have h : p ≥ DMAPLIM := by unfold DMAPLIM; omega
  simp only [Dmap, h, if_true]

theorem Dmap_v2p_ok (phys : Physmem_t) (v : Nat) (hv : 2 ^ 39 < v) :
    Dmap_v2p phys v = .ok ((v + (2 ^ 64 - phys._vdirect % 2 ^ 64)) % 2 ^ 64) := by
  have h : ¬ v ≤ DMAPLIM := by unfold DMAPLIM; omega
  simp only [Dmap_v2p, h, if_false]

theorem Dmap_v2p_error (phys : Physmem_t) (v : Nat) (hv : v ≤ 2 ^ 39) :
    Dmap_v2p phys v = .error "address isn't in the direct map" := by
  have h : v ≤ DMAPLIM := by unfold DMAPLIM; omega
  simp only [Dmap_v2p, h, if_true]

/-- C9: `Dmap p` fails fatally exactly when `p ≥ 2^39`; for `p < 2^39` it
returns the pointer sum `base_offset + (p rounded down to a multiple of 4096)`
(a `uintptr` sum, hence taken modulo `2^64`; it is the exact sum whenever the
window `[base, base + 2^39)` fits below `2^64`), so `Dmap p = Dmap (p & PGMASK)`
and the result is page-aligned whenever the base offset is. -/
theorem Dmap_spec (phys : Physmem_t) (p : Nat) :
    ((∃ e, Dmap phys p = .error e) ↔ 2 ^ 39 ≤ p) ∧
    (p < 2 ^ 39 →
      Dmap phys p = .ok ((phys._vdirect + 4096 * (p / 4096)) % 2 ^ 64) ∧
      (phys._vdirect + 2 ^ 39 ≤ 2 ^ 64 →
        Dmap phys p = .ok (phys._vdirect + 4096 * (p / 4096))) ∧
      Dmap phys p = Dmap phys (p &&& PGMASK) ∧
      (phys._vdirect % 4096 = 0 → ∃ v, Dmap phys p = .ok v ∧ v % 4096 = 0)) := by
  refine ⟨⟨?_, ?_⟩, ?_⟩
  · rintro ⟨e, he⟩
    by_contra hlt
    rw [Dmap_ok phys p (by omega)] at he
    cases he
  · intro hp
    exact ⟨_, Dmap_error phys p hp⟩
  · intro hp
    refine ⟨Dmap_ok phys p hp, ?_, ?_, ?_⟩
    · intro hw
      rw [Dmap_ok phys p hp]
      congr 1
      apply Nat.mod_eq_of_lt
      omega
    · rw [and_PGMASK p (by omega), Dmap_ok phys p hp, Dmap_ok phys _ (by omega)]
      congr 3
      omega
    · intro ha
      exact ⟨_, Dmap_ok phys p hp, by omega⟩

theorem Dmap_spec_witness :
    (0x12345 < 2 ^ 39 ∧ 0x44 * 2 ^ 39 + 2 ^ 39 ≤ 2 ^ 64) ∧
    Dmap ⟨[], 0, NOPG, NOPG, true, 0x44 * 2 ^ 39⟩ 0x12345 = .ok (0x44 * 2 ^ 39 + 0x12000) :=
  ⟨by decide,
    ((Dmap_spec ⟨[], 0, NOPG, NOPG, true, 0x44 * 2 ^ 39⟩ 0x12345).2 (by decide)).2.1 (by decide)⟩

/-- C10 (as stated) fails in both directions: with the base at `0x44 << 39` the
pointer `2^40` lies below the base yet `Dmap_v2p` returns normally (a wrapped
difference), and with the base at `2^39` the pointer `2^39` lies at the base
yet `Dmap_v2p` fails fatally. -/
theorem Dmap_v2p_below_base_counterexample :
    (2 ^ 40 < 0x44 * 2 ^ 39 ∧
      Dmap_v2p ⟨[], 0, NOPG, NOPG, true, 0x44 * 2 ^ 39⟩ (2 ^ 40)
        = .ok (2 ^ 64 + 2 ^ 40 - 0x44 * 2 ^ 39)) ∧
    (2 ^ 39 ≤ 2 ^ 39 ∧
      Dmap_v2p ⟨[], 0, NOPG, NOPG, true, 2 ^ 39⟩ (2 ^ 39)
        = .error "address isn't in the direct map") := by
  refine ⟨⟨by decide, ?_⟩, ⟨by decide, ?_⟩⟩
  · rw [Dmap_v2p_ok _ _ (by norm_num)]
    norm_num
  · exact Dmap_v2p_error _ _ (by norm_num)

/-- C10 (amended): `Dmap_v2p v` fails fatally exactly when `v ≤ 2^39`, whatever
the base offset is; for every `v > 2^39` it returns `v - base_offset` modulo
`2^64`, which is the plain difference `v - base_offset` when `v` is a pointer
at or above the base. -/
theorem Dmap_v2p_spec (phys : Physmem_t) (v : Nat) :
    ((∃ e, Dmap_v2p phys v = .error e) ↔ v ≤ 2 ^ 39) ∧
    (2 ^ 39 < v →
      Dmap_v2p phys v = .ok ((v + (2 ^ 64 - phys._vdirect % 2 ^ 64)) % 2 ^ 64) ∧
      (phys._vdirect ≤ v → v < 2 ^ 64 → Dmap_v2p phys v = .ok (v - phys._vdirect))) := by
  refine ⟨⟨?_, ?_⟩, ?_⟩
  · rintro ⟨e, he⟩
    by_contra hlt
    rw [Dmap_v2p_ok phys v (by omega)] at he
    cases he
  · intro hv
    exact ⟨_, Dmap_v2p_error phys v hv⟩
  · intro hv
    refine ⟨Dmap_v2p_ok phys v hv, ?_⟩
    intro hb hlt
    rw [Dmap_v2p_ok phys v hv]
    congr 1
    omega

theorem Dmap_v2p_spec_witness :
    (2 ^ 39 < 0x44 * 2 ^ 39 + 0x5000 ∧ 0x44 * 2 ^ 39 ≤ 0x44 * 2 ^ 39 + 0x5000 ∧
      0x44 * 2 ^ 39 + 0x5000 < 2 ^ 64) ∧
    Dmap_v2p ⟨[], 0, NOPG, NOPG, true, 0x44 * 2 ^ 39⟩ (0x44 * 2 ^ 39 + 0x5000) = .ok 0x5000 :=
  ⟨by decide,
    ((Dmap_v2p_spec ⟨[], 0, NOPG, NOPG, true, 0x44 * 2 ^ 39⟩ (0x44 * 2 ^ 39 + 0x5000)).2
      (by decide)).2 (by decide) (by decide)⟩

/-- C8 (as stated) fails: with base offset `2^39`, the physical address `0` is
below `2^39`, `Dmap` maps it to the pointer `2^39`, and `Dmap_v2p` of that
pointer fails fatally instead of returning `0`. -/
theorem Dmap_roundtrip_counterexample :
    0 < 2 ^ 39 ∧ Dmap ⟨[], 0, NOPG, NOPG, true, 2 ^ 39⟩ 0 = .ok (2 ^ 39) ∧
    Dmap_v2p ⟨[], 0, NOPG, NOPG, true, 2 ^ 39⟩ (2 ^ 39)
      = .error "address isn't in the direct map" := by
  refine ⟨by decide, ?_, ?_⟩
  · rw [Dmap_ok _ _ (by norm_num)]
    norm_num
  · exact Dmap_v2p_error _ _ (by norm_num)

/-- C8 (amended): for every physical address `p < 2^39` whose direct-mapped
pointer `v = Dmap p` lies strictly above `2^39` (as it does for every such `p`
once `2^39 < base` and `base + 2^39 ≤ 2^64`), `Dmap_v2p v` returns normally and
equals `p` rounded down to a page boundary, and `Dmap (Dmap_v2p v)` returns
normally and equals `v`; when the pointer is not above `2^39`, `Dmap_v2p`
fails fatally on it. -/
theorem Dmap_roundtrip (phys : Physmem_t) (p : Nat) (hp : p < 2 ^ 39) :
    ∃ v, Dmap phys p = .ok v ∧
      (2 ^ 39 < v →
        Dmap_v2p phys v = .ok (4096 * (p / 4096)) ∧
        Dmap phys (4096 * (p / 4096)) = .ok v) ∧
      (v ≤ 2 ^ 39 → ∃ e, Dmap_v2p phys v = .error e) ∧
      (2 ^ 39 < phys._vdirect → phys._vdirect + 2 ^ 39 ≤ 2 ^ 64 → 2 ^ 39 < v) := by
  refine ⟨_, Dmap_ok phys p hp, ?_, ?_, ?_⟩
  · intro hv
    refine ⟨?_, ?_⟩
    · rw [Dmap_v2p_ok phys _ hv]
      congr 1
      omega
    · rw [Dmap_ok phys _ (by omega)]
      congr 3
      omega
  · intro hv
    exact ⟨_, Dmap_v2p_error phys _ hv⟩
  · intro h1 h2
    omega

theorem Dmap_roundtrip_witness :
    0x12345 < 2 ^ 39 ∧
    ∃ v, Dmap ⟨[], 0, NOPG, NOPG, true, 0x44 * 2 ^ 39⟩ 0x12345 = .ok v ∧
      Dmap_v2p ⟨[], 0, NOPG, NOPG, true, 0x44 * 2 ^ 39⟩ v = .ok 0x12000 ∧
      Dmap ⟨[], 0, NOPG, NOPG, true, 0x44 * 2 ^ 39⟩ 0x12000 = .ok v :=
  ⟨by decide,
    match Dmap_roundtrip ⟨[], 0, NOPG, NOPG, true, 0x44 * 2 ^ 39⟩ 0x12345 (by decide) with
    | ⟨v, h1, h2, _, h4⟩ => ⟨v, h1, h2 (h4 (by decide) (by decide))⟩⟩

/-! ## Reference counter: properties -/

theorem wrap32_id (x : Int) (h1 : -2 ^ 31 ≤ x) (h2 : x < 2 ^ 31) : wrap32 x = x := by
  unfold wrap32; omega

theorem _refaddr_lt {phys : Physmem_t} {p idx : Nat} (h : _refaddr phys p = .ok idx) :
    idx < phys.pgs.length := by
  unfold _refaddr at h
  simp only at h
  split at h
  · cases h; assumption
  · cases h

theorem _refdec_eq {phys : Physmem_t} {p idx : Nat} {pg : Physpg_t}
    (h1 : _refaddr phys p = .ok idx) (h2 : phys.pgs[idx]? = some pg) :
    _refdec phys p =
      if wrap32 (pg.refcnt + -1) < 0 then
        .fatal "wut" { phys with pgs := phys.pgs.set idx ⟨wrap32 (pg.refcnt + -1), pg.nexti⟩ }
      else
        .ret (decide (wrap32 (pg.refcnt + -1) = 0), idx)
          { phys with pgs := phys.pgs.set idx ⟨wrap32 (pg.refcnt + -1), pg.nexti⟩ } := by
  simp only [_refdec, h1, AddInt32, h2]

theorem setNexti_set (pgs : List Physpg_t) (idx v : Nat) (a : Physpg_t)
    (h : idx < pgs.length) :
    setNexti (pgs.set idx a) idx v = pgs.set idx ⟨a.refcnt, v⟩ := by
  unfold setNexti
  rw [List.getElem?_set_self h]
  simp only [List.set_set]

theorem Refdown_zero {phys : Physmem_t} {p idx : Nat} {pg : Physpg_t}
    (h1 : _refaddr phys p = .ok idx) (h2 : phys.pgs[idx]? = some pg) (h0 : pg.refcnt = 0) :
    Refdown phys p = .fatal "wut" { phys with pgs := phys.pgs.set idx ⟨-1, pg.nexti⟩ } := by
  have hw : wrap32 (pg.refcnt + -1) = -1 := by rw [h0]; decide
  rw [Refdown, _refdec_eq h1 h2, hw]
  rfl

theorem Refdown_one {phys : Physmem_t} {p idx : Nat} {pg : Physpg_t}
    (h1 : _refaddr phys p = .ok idx) (h2 : phys.pgs[idx]? = some pg) (h0 : pg.refcnt = 1) :
    Refdown phys p =
      .ret true { phys with pgs := phys.pgs.set idx ⟨0, phys.freei⟩, freei := idx } := by
  have hlt := _refaddr_lt h1
  have hw : wrap32 (pg.refcnt + -1) = 0 := by rw [h0]; decide
  rw [Refdown, _refdec_eq h1 h2, hw]
  simp only [lt_self_iff_false, if_false, decide_True, if_true, _reffree, List.length_set, hlt,
    setNexti_set _ _ _ _ hlt]

theorem Refdown_many {phys : Physmem_t} {p idx : Nat} {pg : Physpg_t}
    (h1 : _refaddr phys p = .ok idx) (h2 : phys.pgs[idx]? = some pg)
    (h0 : 1 < pg.refcnt) (hc : pg.refcnt < 2 ^ 31) :
    Refdown phys p =
      .ret false { phys with pgs := phys.pgs.set idx ⟨pg.refcnt - 1, pg.nexti⟩ } := by
  have hw : wrap32 (pg.refcnt + -1) = pg.refcnt - 1 := by
    rw [wrap32_id _ (by omega) (by omega)]; rfl
  have hn : ¬ (pg.refcnt - 1 < 0) := by omega
  have hz : ¬ (pg.refcnt - 1 = 0) := by omega
  rw [Refdown, _refdec_eq h1 h2, hw]
  simp only [hn, hz, if_false, decide_False, Bool.false_eq_true]

/-- C5: `Refdown p` on the frame `idx` that `p` addresses, holding refcount
`c` (an `int32`): `c = 0` is fatal; `c = 1` returns `true` and leaves the state
in which frame `idx` has refcount `0` and link `freei` (the previous general
head), the general head is `idx`, everything else (the page-table-root head
`pmaps`, every other frame's refcount and link) as before; `c > 1` returns
`false` and changes nothing but the refcount of frame `idx`, now `c - 1`. -/
theorem Refdown_spec (phys : Physmem_t) (p idx : Nat) (pg : Physpg_t)
    (h1 : _refaddr phys p = .ok idx) (h2 : phys.pgs[idx]? = some pg)
    (hc : pg.refcnt < 2 ^ 31) :
    (pg.refcnt = 0 →
      Refdown phys p = .fatal "wut" { phys with pgs := phys.pgs.set idx ⟨-1, pg.nexti⟩ }) ∧
    (pg.refcnt = 1 →
      Refdown phys p =
        .ret true { phys with pgs := phys.pgs.set idx ⟨0, phys.freei⟩, freei := idx }) ∧
    (1 < pg.refcnt →
      Refdown phys p =
        .ret false { phys with pgs := phys.pgs.set idx ⟨pg.refcnt - 1, pg.nexti⟩ }) := by
  refine ⟨?_, ?_, ?_⟩
  · intro h0
    exact Refdown_zero h1 h2 h0
  · intro h0
    exact Refdown_one h1 h2 h0
  · intro h0
    exact Refdown_many h1 h2 h0 hc

theorem Refdown_spec_witness :
    (_refaddr ⟨[⟨0, NOPG⟩, ⟨1, 7⟩, ⟨3, 9⟩], 16, 0, NOPG, true, 0x44 * 2 ^ 39⟩ 0x11234 = .ok 1 ∧
      (1 : Int) = 1) ∧
    Refdown ⟨[⟨0, NOPG⟩, ⟨1, 7⟩, ⟨3, 9⟩], 16, 0, NOPG, true, 0x44 * 2 ^ 39⟩ 0x11234 =
      .ret true ⟨[⟨0, NOPG⟩, ⟨0, 0⟩, ⟨3, 9⟩], 16, 1, NOPG, true, 0x44 * 2 ^ 39⟩ :=
  ⟨⟨rfl, rfl⟩,
    (Refdown_spec ⟨[⟨0, NOPG⟩, ⟨1, 7⟩, ⟨3, 9⟩], 16, 0, NOPG, true, 0x44 * 2 ^ 39⟩ 0x11234 1 ⟨1, 7⟩
      (by rfl) (by rfl) (by decide)).2.1 rfl⟩

theorem Dec_pmap_zero {phys : Physmem_t} {p idx : Nat} {pg : Physpg_t}
    (h1 : _refaddr phys p = .ok idx) (h2 : phys.pgs[idx]? = some pg) (h0 : pg.refcnt = 0) :
    Dec_pmap phys p = .fatal "wut" { phys with pgs := phys.pgs.set idx ⟨-1, pg.nexti⟩ } := by
  have hw : wrap32 (pg.refcnt + -1) = -1 := by rw [h0]; decide
  rw [Dec_pmap, _phys_put, _refdec_eq h1 h2, hw]
  rfl

theorem Dec_pmap_one {phys : Physmem_t} {p idx : Nat} {pg : Physpg_t}
    (h1 : _refaddr phys p = .ok idx) (h2 : phys.pgs[idx]? = some pg) (h0 : pg.refcnt = 1) :
    Dec_pmap phys p =
      .ret () { phys with pgs := phys.pgs.set idx ⟨0, phys.pmaps⟩, pmaps := idx } := by
  have hlt := _refaddr_lt h1
  have hw : wrap32 (pg.refcnt + -1) = 0 := by rw [h0]; decide
  rw [Dec_pmap, _phys_put, _refdec_eq h1 h2, hw]
  simp only [lt_self_iff_false, if_false, decide_True, if_true, List.length_set, hlt,
    setNexti_set _ _ _ _ hlt, Physmem_t.head, Physmem_t.setHead]

theorem Dec_pmap_many {phys : Physmem_t} {p idx : Nat} {pg : Physpg_t}
    (h1 : _refaddr phys p = .ok idx) (h2 : phys.pgs[idx]? = some pg)
    (h0 : 1 < pg.refcnt) (hc : pg.refcnt < 2 ^ 31) :
    Dec_pmap phys p =
      .ret () { phys with pgs := phys.pgs.set idx ⟨pg.refcnt - 1, pg.nexti⟩ } := by
  have hw : wrap32 (pg.refcnt + -1) = pg.refcnt - 1 := by
    rw [wrap32_id _ (by omega) (by omega)]; rfl
  have hn : ¬ (pg.refcnt - 1 < 0) := by omega
  have hz : ¬ (pg.refcnt - 1 = 0) := by omega
  rw [Dec_pmap, _phys_put, _refdec_eq h1 h2, hw]
  simp only [hn, hz, if_false, decide_False, Bool.false_eq_true]

/-- C6: `Dec_pmap p` decrements the refcount `c` of the root frame `idx` that
`p` addresses.  When the result is zero (`c = 1`) the frame is pushed on the
page-table-root list: its link becomes the previous `pmaps`, `pmaps` becomes
`idx`, and the general head `freei` and every other frame are as before.  When
the result is positive (`c > 1`) only the refcount of frame `idx` changes, so
neither list changes.  (`c = 0` is fatal.) -/
theorem Dec_pmap_spec (phys : Physmem_t) (p idx : Nat) (pg : Physpg_t)
    (h1 : _refaddr phys p = .ok idx) (h2 : phys.pgs[idx]? = some pg)
    (hc : pg.refcnt < 2 ^ 31) :
    (pg.refcnt = 1 →
      Dec_pmap phys p =
        .ret () { phys with pgs := phys.pgs.set idx ⟨0, phys.pmaps⟩, pmaps := idx }) ∧
    (1 < pg.refcnt →
      Dec_pmap phys p =
        .ret () { phys with pgs := phys.pgs.set idx ⟨pg.refcnt - 1, pg.nexti⟩ }) ∧
    (pg.refcnt = 0 →
      Dec_pmap phys p = .fatal "wut" { phys with pgs := phys.pgs.set idx ⟨-1, pg.nexti⟩ }) := by
  refine ⟨?_, ?_, ?_⟩
  · intro h0
    exact Dec_pmap_one h1 h2 h0
  · intro h0
    exact Dec_pmap_many h1 h2 h0 hc
  · intro h0
    exact Dec_pmap_zero h1 h2 h0

theorem Dec_pmap_spec_witness :
    (_refaddr ⟨[⟨0, NOPG⟩, ⟨1, 7⟩, ⟨3, 9⟩], 16, 0, 2, true, 0x44 * 2 ^ 39⟩ 0x11234 = .ok 1 ∧
      (1 : Int) = 1) ∧
    Dec_pmap ⟨[⟨0, NOPG⟩, ⟨1, 7⟩, ⟨3, 9⟩], 16, 0, 2, true, 0x44 * 2 ^ 39⟩ 0x11234 =
      .ret () ⟨[⟨0, NOPG⟩, ⟨0, 2⟩, ⟨3, 9⟩], 16, 0, 1, true, 0x44 * 2 ^ 39⟩ :=
  ⟨⟨rfl, rfl⟩,
    (Dec_pmap_spec ⟨[⟨0, NOPG⟩, ⟨1, 7⟩, ⟨3, 9⟩], 16, 0, 2, true, 0x44 * 2 ^ 39⟩ 0x11234 1 ⟨1, 7⟩
      (by rfl) (by rfl) (by decide)).1 rfl⟩

/-! ## Popping a free list -/

theorem setHead_vdirect (phys : Physmem_t) (fl : Flist) (v : Nat) :
    (phys.setHead fl v)._vdirect = phys._vdirect := by
  cases fl <;> rfl

theorem setHead_pgs (phys : Physmem_t) (fl : Flist) (v : Nat) :
    (phys.setHead fl v).pgs = phys.pgs := by
  cases fl <;> rfl

theorem _phys_new_ok (phys : Physmem_t) (fl : Flist) (pg : Physpg_t)
    (hinit : phys.dmapinit = true) (hne : phys.head fl ≠ NOPG)
    (hpg : phys.pgs[phys.head fl]? = some pg) (href : 0 ≤ pg.refcnt)
    (haddr : (phys.head fl + phys.startn) % 2 ^ 32 * 4096 < 2 ^ 39) :
    _phys_new phys fl =
      .ret ((phys._vdirect + (phys.head fl + phys.startn) % 2 ^ 32 * 4096) % 2 ^ 64,
        (phys.head fl + phys.startn) % 2 ^ 32 * 4096, true) (phys.setHead fl pg.nexti) := by
  have hr : ¬ pg.refcnt < 0 := by omega
  have hm : ((phys.head fl + phys.startn) % 2 ^ 32 * 2 ^ PGSHIFT) % 2 ^ 64
      = (phys.head fl + phys.startn) % 2 ^ 32 * 4096 := by
    unfold PGSHIFT; omega
  have hd : 4096 * ((phys.head fl + phys.startn) % 2 ^ 32 * 4096 / 4096)
      = (phys.head fl + phys.startn) % 2 ^ 32 * 4096 := by omega
  simp only [_phys_new, hinit, Bool.not_true, Bool.false_eq_true, if_false, hne, ne_eq,
    not_false_eq_true, if_true, hpg, hr, hm, Dmap_ok _ _ haddr, setHead_vdirect, hd]

theorem _phys_new_empty (phys : Physmem_t) (fl : Flist)
    (hinit : phys.dmapinit = true) (he : phys.head fl = NOPG) :
    _phys_new phys fl = .ret (0, 0, false) phys := by
  simp only [_phys_new, hinit, Bool.not_true, Bool.false_eq_true, if_false, he, ne_eq,
    not_true_eq_false]

theorem _phys_new_uninit (phys : Physmem_t) (fl : Flist) (hinit : phys.dmapinit = false) :
    _phys_new phys fl = .fatal "dmap not initted" phys := by
  simp only [_phys_new, hinit, Bool.not_false, if_true]

/-- A pop of a non-empty list either is fatal or succeeds; it never reports
exhaustion. -/
theorem _phys_new_nonempty (phys : Physmem_t) (fl : Flist) (hne : phys.head fl ≠ NOPG) :
    (∃ e s, _phys_new phys fl = .fatal e s) ∨ (∃ v p s, _phys_new phys fl = .ret (v, p, true) s) := by
  unfold _phys_new
  by_cases hinit : phys.dmapinit = true
  · simp only [hinit, Bool.not_true, Bool.false_eq_true, if_false, hne, ne_eq,
      not_false_eq_true, if_true]
    cases hpg : phys.pgs[phys.head fl]? with
    | none => exact Or.inl ⟨_, _, rfl⟩
    | some pg =>
      simp only
      by_cases hr : pg.refcnt < 0
      · simp only [hr, if_true]; exact Or.inl ⟨_, _, rfl⟩
      · simp only [hr, if_false]
        cases hd : Dmap (phys.setHead fl pg.nexti)
            (((phys.head fl + phys.startn) % 2 ^ 32 * 2 ^ PGSHIFT) % 2 ^ 64) with
        | error e => exact Or.inl ⟨_, _, rfl⟩
        | ok v => exact Or.inr ⟨_, _, _, rfl⟩
  · simp only [Bool.not_eq_true] at hinit
    simp only [hinit, Bool.not_false, if_true]
    exact Or.inl ⟨_, _, rfl⟩

/-! ## Allocation API: properties -/

theorem Refpg_new_nozero_ok (phys : Physmem_t) (pg : Physpg_t)
    (hinit : phys.dmapinit = true) (hne : phys.freei ≠ NOPG)
    (hpg : phys.pgs[phys.freei]? = some pg) (href : 0 ≤ pg.refcnt)
    (haddr : (phys.freei + phys.startn) % 2 ^ 32 * 4096 < 2 ^ 39) :
    Refpg_new_nozero phys =
      .ret ((phys._vdirect + (phys.freei + phys.startn) % 2 ^ 32 * 4096) % 2 ^ 64,
        (phys.freei + phys.startn) % 2 ^ 32 * 4096, true) { phys with freei := pg.nexti } := by
  rw [Refpg_new_nozero, _refpg_new, _phys_new_ok phys .freei pg hinit hne hpg href haddr]
  rfl

theorem Refpg_new_nozero_empty (phys : Physmem_t)
    (hinit : phys.dmapinit = true) (he : phys.freei = NOPG) :
    Refpg_new_nozero phys = .ret (0, 0, false) phys := by
  rw [Refpg_new_nozero, _refpg_new, _phys_new_empty phys .freei hinit he]
  rfl

theorem Refpg_new_nil (w : World) (pg : Physpg_t)
    (hinit : w.Physmem.dmapinit = true) (hne : w.Physmem.freei ≠ NOPG)
    (hpg : w.Physmem.pgs[w.Physmem.freei]? = some pg) (href : 0 ≤ pg.refcnt)
    (haddr : (w.Physmem.freei + w.Physmem.startn) % 2 ^ 32 * 4096 < 2 ^ 39)
    (hnil : w.Zeropg = 0 ∨
      (w.Physmem._vdirect + (w.Physmem.freei + w.Physmem.startn) % 2 ^ 32 * 4096) % 2 ^ 64 = 0) :
    Refpg_new w = .fatal nilDeref { w with Physmem := { w.Physmem with freei := pg.nexti } } := by
  rw [Refpg_new, if_neg (by simp [hinit]), _refpg_new,
    _phys_new_ok w.Physmem .freei pg hinit hne hpg href haddr]
  show (if (!true) = true then _ else if _ then _ else _) = _
  rw [if_neg (by decide)]
  exact if_pos hnil

theorem Refpg_new_ok (w : World) (pg : Physpg_t)
    (hinit : w.Physmem.dmapinit = true) (hne : w.Physmem.freei ≠ NOPG)
    (hpg : w.Physmem.pgs[w.Physmem.freei]? = some pg) (href : 0 ≤ pg.refcnt)
    (haddr : (w.Physmem.freei + w.Physmem.startn) % 2 ^ 32 * 4096 < 2 ^ 39)
    (hz : w.Zeropg ≠ 0)
    (hv : (w.Physmem._vdirect + (w.Physmem.freei + w.Physmem.startn) % 2 ^ 32 * 4096) % 2 ^ 64
      ≠ 0) :
    Refpg_new w =
      .ret ((w.Physmem._vdirect + (w.Physmem.freei + w.Physmem.startn) % 2 ^ 32 * 4096) % 2 ^ 64,
        (w.Physmem.freei + w.Physmem.startn) % 2 ^ 32 * 4096, true)
        { w with
          Physmem := { w.Physmem with freei := pg.nexti }
          ram := copyPg w.ram
            ((w.Physmem._vdirect + (w.Physmem.freei + w.Physmem.startn) % 2 ^ 32 * 4096) % 2 ^ 64)
            w.Zeropg } := by
  rw [Refpg_new, if_neg (by simp [hinit]), _refpg_new,
    _phys_new_ok w.Physmem .freei pg hinit hne hpg href haddr]
  show (if (!true) = true then _ else if _ then _ else _) = _
  rw [if_neg (by decide)]
  exact if_neg (by rintro (h | h); exact hz h; exact hv h)

theorem Refpg_new_empty (w : World)
    (hinit : w.Physmem.dmapinit = true) (he : w.Physmem.freei = NOPG) :
    Refpg_new w = .ret (0, 0, false) w := by
  rw [Refpg_new, _refpg_new, _phys_new_empty w.Physmem .freei hinit he]
  simp only [hinit, Bool.not_true, Bool.false_eq_true, if_false]
  rfl

/-- With a non-empty general list `Refpg_new` is fatal or succeeds; it never
reports exhaustion. -/
theorem Refpg_new_nonempty (w : World) (hne : w.Physmem.freei ≠ NOPG) :
    (∃ e s, Refpg_new w = .fatal e s) ∨ (∃ v p s, Refpg_new w = .ret (v, p, true) s) := by
  unfold Refpg_new _refpg_new
  by_cases hinit : w.Physmem.dmapinit = true
  · simp only [hinit, Bool.not_true, Bool.false_eq_true, if_false]
    rcases _phys_new_nonempty w.Physmem .freei hne with ⟨e, s, h⟩ | ⟨v, p, s, h⟩
    · rw [h]; exact Or.inl ⟨_, _, rfl⟩
    · rw [h]
      by_cases hnil : w.Zeropg = 0 ∨ v = 0
      · refine Or.inl ⟨nilDeref, { w with Physmem := s }, ?_⟩
        simp only [Bool.not_true, Bool.false_eq_true, if_false, hnil, if_true]
      · refine Or.inr ⟨v, p, { w with Physmem := s, ram := copyPg w.ram v w.Zeropg }, ?_⟩
        simp only [Bool.not_true, Bool.false_eq_true, if_false, hnil]
  · simp only [Bool.not_eq_true] at hinit
    simp only [hinit, Bool.not_false, if_true]
    exact Or.inl ⟨_, _, rfl⟩

/-- C7 (as stated) fails: in an initialised state whose page-table-root list is
non-empty (head frame `0`, refcount `0`) but whose frame lies at physical
address `2^39`, `Pmap_new` does not return the head frame, it is fatal; and in
an uninitialised state with both lists empty it is fatal instead of reporting
failure. -/
theorem Pmap_new_counterexample :
    ((0 : Nat) ≠ NOPG ∧
      Pmap_new ⟨⟨[⟨0, NOPG⟩], 2 ^ 27, NOPG, 0, true, 0x44 * 2 ^ 39⟩, 0x44 * 2 ^ 39, fun _ _ => 0⟩
        = .fatal "direct map not large enough"
            ⟨⟨[⟨0, NOPG⟩], 2 ^ 27, NOPG, NOPG, true, 0x44 * 2 ^ 39⟩,
              0x44 * 2 ^ 39, fun _ _ => 0⟩) ∧
    Pmap_new ⟨⟨[⟨0, NOPG⟩], 0, NOPG, NOPG, false, 0x44 * 2 ^ 39⟩, 0x44 * 2 ^ 39, fun _ _ => 0⟩
      = .fatal "dmap not initted"
          ⟨⟨[⟨0, NOPG⟩], 0, NOPG, NOPG, false, 0x44 * 2 ^ 39⟩, 0x44 * 2 ^ 39, fun _ _ => 0⟩ := by
  refine ⟨⟨by decide, ?_⟩, ?_⟩
  · rfl
  · rfl

/-- C7 (amended): in an initialised state `Pmap_new` takes from the
page-table-root list first.  If that list is non-empty and its head is a frame
of the table with refcount `≥ 0` and physical address below `2^39`, `Pmap_new`
returns that head frame (pointer, address, `true`) and only unlinks it from the
page-table-root list: the general free list, the frame table and memory are
untouched.  If that list is empty, `Pmap_new` behaves exactly as `Refpg_new`
(same result, same final state).  It reports failure if and only if both lists
are empty, and then the state is unchanged. -/
theorem Pmap_new_spec (w : World) (hinit : w.Physmem.dmapinit = true) :
    (∀ pg, w.Physmem.pmaps ≠ NOPG → w.Physmem.pgs[w.Physmem.pmaps]? = some pg →
      0 ≤ pg.refcnt → (w.Physmem.pmaps + w.Physmem.startn) % 2 ^ 32 * 4096 < 2 ^ 39 →
      Pmap_new w =
        .ret ((w.Physmem._vdirect + (w.Physmem.pmaps + w.Physmem.startn) % 2 ^ 32 * 4096) % 2 ^ 64,
          (w.Physmem.pmaps + w.Physmem.startn) % 2 ^ 32 * 4096, true)
          { w with Physmem := { w.Physmem with pmaps := pg.nexti } }) ∧
    (w.Physmem.pmaps = NOPG → Pmap_new w = Refpg_new w) ∧
    ((∃ a b s, Pmap_new w = .ret (a, b, false) s) ↔
      (w.Physmem.pmaps = NOPG ∧ w.Physmem.freei = NOPG)) ∧
    (w.Physmem.pmaps = NOPG → w.Physmem.freei = NOPG → Pmap_new w = .ret (0, 0, false) w) := by
  have hfall : w.Physmem.pmaps = NOPG → Pmap_new w = Refpg_new w := by
    intro he
    rw [Pmap_new, _phys_new_empty w.Physmem .pmaps hinit he]
    rfl
  refine ⟨?_, hfall, ⟨?_, ?_⟩, ?_⟩
  · intro pg hne hpg href haddr
    rw [Pmap_new, _phys_new_ok w.Physmem .pmaps pg hinit hne hpg href haddr]
    rfl
  · rintro ⟨a, b, s, h⟩
    by_cases hp : w.Physmem.pmaps = NOPG
    · refine ⟨hp, ?_⟩
      by_contra hf
      rw [hfall hp] at h
      rcases Refpg_new_nonempty w hf with ⟨e, s1, h1⟩ | ⟨v, q, s1, h1⟩
      · rw [h1] at h; cases h
      · rw [h1] at h; cases h
    · exfalso
      rw [Pmap_new] at h
      rcases _phys_new_nonempty w.Physmem .pmaps hp with ⟨e, s1, h1⟩ | ⟨v, q, s1, h1⟩
      · rw [h1] at h; cases h
      · rw [h1] at h; cases h
  · rintro ⟨hp, hf⟩
    exact ⟨0, 0, w, by rw [hfall hp, Refpg_new_empty w hinit hf]⟩
  · intro hp hf
    rw [hfall hp, Refpg_new_empty w hinit hf]

theorem Pmap_new_spec_witness :
    (true = true ∧ (1 : Nat) ≠ NOPG ∧ (0 : Int) ≤ 0 ∧ (1 + 16) % 2 ^ 32 * 4096 < 2 ^ 39) ∧
    Pmap_new ⟨⟨[⟨0, NOPG⟩, ⟨0, 2⟩, ⟨0, NOPG⟩], 16, 0, 1, true, 0x44 * 2 ^ 39⟩,
        0x44 * 2 ^ 39, fun _ _ => 0⟩ =
      .ret (0x44 * 2 ^ 39 + 0x11000, 0x11000, true)
        ⟨⟨[⟨0, NOPG⟩, ⟨0, 2⟩, ⟨0, NOPG⟩], 16, 0, 2, true, 0x44 * 2 ^ 39⟩,
          0x44 * 2 ^ 39, fun _ _ => 0⟩ :=
  ⟨by decide,
    (Pmap_new_spec ⟨⟨[⟨0, NOPG⟩, ⟨0, 2⟩, ⟨0, NOPG⟩], 16, 0, 1, true, 0x44 * 2 ^ 39⟩,
        0x44 * 2 ^ 39, fun _ _ => 0⟩ rfl).1 ⟨0, 2⟩ (by decide) (by rfl) (by decide) (by decide)⟩

/-! ## Free then allocate -/

theorem _refaddr_idx {phys : Physmem_t} {p idx : Nat} (h : _refaddr phys p = .ok idx) :
    idx = (p / 4096 % 2 ^ 32 + (2 ^ 32 - phys.startn % 2 ^ 32)) % 2 ^ 32 := by
  unfold _refaddr _pg2pgn PGSHIFT at h
  simp only at h
  split at h
  · cases h; norm_num
  · cases h

/-- The frame address computed by a pop of index `idx` is the page of `p`. -/
theorem frame_addr_of_refaddr {phys : Physmem_t} {p idx : Nat}
    (h : _refaddr phys p = .ok idx) (hp : p < 2 ^ 39) :
    (idx + phys.startn) % 2 ^ 32 * 4096 = 4096 * (p / 4096) := by
  have hi := _refaddr_idx h
  omega

/-- C1 (as stated) fails in two ways.  First, for `Refpg_new`: in an initialised
state, after `Refdown` of the managed frame at `0x11234` (refcount `1`) has
returned `true`, the next `Refpg_new` pops that frame and then fails fatally
when `Zeropg` is nil.  Second, for a frame whose table index is the all-ones
value: in the table of `2^32` frames with `startn = 1`, the address `0`
addresses index `0xffffffff`; `Refdown` returns `true` and stores that index as
the list head, which the next `Refpg_new_nozero` reads as the empty list. -/
theorem free_then_allocate_counterexample :
    (Refdown ⟨[⟨0, NOPG⟩, ⟨1, 7⟩, ⟨3, 9⟩], 16, 0, NOPG, true, 0x44 * 2 ^ 39⟩ 0x11234
        = .ret true ⟨[⟨0, NOPG⟩, ⟨0, 0⟩, ⟨3, 9⟩], 16, 1, NOPG, true, 0x44 * 2 ^ 39⟩ ∧
      Refpg_new ⟨⟨[⟨0, NOPG⟩, ⟨0, 0⟩, ⟨3, 9⟩], 16, 1, NOPG, true, 0x44 * 2 ^ 39⟩, 0,
          fun _ _ => 0⟩
        = .fatal nilDeref
            ⟨⟨[⟨0, NOPG⟩, ⟨0, 0⟩, ⟨3, 9⟩], 16, 0, NOPG, true, 0x44 * 2 ^ 39⟩, 0,
              fun _ _ => 0⟩) ∧
    (_refaddr ⟨List.replicate (2 ^ 32) ⟨1, NOPG⟩, 1, NOPG, NOPG, true, 0x44 * 2 ^ 39⟩ 0
        = .ok NOPG ∧
      (List.replicate (2 ^ 32) (⟨1, NOPG⟩ : Physpg_t))[NOPG]? = some ⟨1, NOPG⟩ ∧
      Refdown ⟨List.replicate (2 ^ 32) ⟨1, NOPG⟩, 1, NOPG, NOPG, true, 0x44 * 2 ^ 39⟩ 0
        = .ret true
            ⟨(List.replicate (2 ^ 32) ⟨1, NOPG⟩).set NOPG ⟨0, NOPG⟩, 1, NOPG, NOPG, true,
              0x44 * 2 ^ 39⟩ ∧
      Refpg_new_nozero
          ⟨(List.replicate (2 ^ 32) ⟨1, NOPG⟩).set NOPG ⟨0, NOPG⟩, 1, NOPG, NOPG, true,
            0x44 * 2 ^ 39⟩
        = .ret (0, 0, false)
            ⟨(List.replicate (2 ^ 32) ⟨1, NOPG⟩).set NOPG ⟨0, NOPG⟩, 1, NOPG, NOPG, true,
              0x44 * 2 ^ 39⟩) := by
  have hidx : (0 / 2 ^ PGSHIFT % 2 ^ 32 + (2 ^ 32 - 1 % 2 ^ 32)) % 2 ^ 32 = NOPG := by decide
  have hlt : NOPG < 2 ^ 32 := by decide
  have h1 : _refaddr ⟨List.replicate (2 ^ 32) ⟨1, NOPG⟩, 1, NOPG, NOPG, true, 0x44 * 2 ^ 39⟩ 0
      = .ok NOPG := by
    unfold _refaddr _pg2pgn
    simp only [List.length_replicate, hidx, hlt, if_true]
  have h2 : (List.replicate (2 ^ 32) (⟨1, NOPG⟩ : Physpg_t))[NOPG]? = some ⟨1, NOPG⟩ :=
    List.getElem?_replicate_of_lt hlt
  refine ⟨⟨by rfl, by rfl⟩, h1, h2, Refdown_one h1 h2 rfl, ?_⟩
  exact Refpg_new_nozero_empty _ rfl rfl

/-- C1 (amended): free-then-allocate returns the freed frame.  In an
initialised state, for a physical address `p < 2^39` addressing frame `idx` of
the table, `idx` not being the all-ones value, whose refcount is `1`:
`Refdown p` returns `true`, and in the state it leaves the very next
`Refpg_new_nozero` succeeds with physical address `p` rounded down to its page;
likewise `Refpg_new`, for every memory content, provided `Zeropg` and the
direct-mapped pointer of the frame are not nil. -/
theorem free_then_allocate (phys : Physmem_t) (p idx : Nat) (pg : Physpg_t)
    (hinit : phys.dmapinit = true) (hp : p < 2 ^ 39)
    (h1 : _refaddr phys p = .ok idx) (hidx : idx ≠ NOPG)
    (h2 : phys.pgs[idx]? = some pg) (hc : pg.refcnt = 1) :
    Refdown phys p =
      .ret true { phys with pgs := phys.pgs.set idx ⟨0, phys.freei⟩, freei := idx } ∧
    Refpg_new_nozero { phys with pgs := phys.pgs.set idx ⟨0, phys.freei⟩, freei := idx } =
      .ret ((phys._vdirect + 4096 * (p / 4096)) % 2 ^ 64, 4096 * (p / 4096), true)
        { phys with pgs := phys.pgs.set idx ⟨0, phys.freei⟩ } ∧
    ∀ (z : Nat) (ram : Nat → Pg_t), z ≠ 0 → (phys._vdirect + 4096 * (p / 4096)) % 2 ^ 64 ≠ 0 →
      Refpg_new ⟨{ phys with pgs := phys.pgs.set idx ⟨0, phys.freei⟩, freei := idx }, z, ram⟩ =
        .ret ((phys._vdirect + 4096 * (p / 4096)) % 2 ^ 64, 4096 * (p / 4096), true)
          ⟨{ phys with pgs := phys.pgs.set idx ⟨0, phys.freei⟩ }, z,
            copyPg ram ((phys._vdirect + 4096 * (p / 4096)) % 2 ^ 64) z⟩ := by
  have hlt := _refaddr_lt h1
  have haddr := frame_addr_of_refaddr h1 hp
  have hlim : (idx + phys.startn) % 2 ^ 32 * 4096 < 2 ^ 39 := by omega
  refine ⟨Refdown_one h1 h2 hc, ?_, ?_⟩
  · have h := Refpg_new_nozero_ok
      { phys with pgs := phys.pgs.set idx ⟨0, phys.freei⟩, freei := idx } ⟨0, phys.freei⟩
      hinit hidx (List.getElem?_set_self hlt) (le_refl _) hlim
    rw [h]
    simp only [haddr]
  · intro z ram hz hv
    have h := Refpg_new_ok
      ⟨{ phys with pgs := phys.pgs.set idx ⟨0, phys.freei⟩, freei := idx }, z, ram⟩
      ⟨0, phys.freei⟩ hinit hidx (List.getElem?_set_self hlt) (le_refl _) hlim hz
      (by
        show (phys._vdirect + (idx + phys.startn) % 2 ^ 32 * 4096) % 2 ^ 64 ≠ 0
        rw [haddr]; exact hv)
    rw [h]
    simp only [haddr]

theorem free_then_allocate_witness :
    (true = true ∧ 0x11234 < 2 ^ 39 ∧ (1 : Nat) ≠ NOPG ∧ (1 : Int) = 1) ∧
    Refdown ⟨[⟨0, NOPG⟩, ⟨1, 7⟩, ⟨3, 9⟩], 16, 0, NOPG, true, 0x44 * 2 ^ 39⟩ 0x11234
      = .ret true ⟨[⟨0, NOPG⟩, ⟨0, 0⟩, ⟨3, 9⟩], 16, 1, NOPG, true, 0x44 * 2 ^ 39⟩ ∧
    Refpg_new_nozero ⟨[⟨0, NOPG⟩, ⟨0, 0⟩, ⟨3, 9⟩], 16, 1, NOPG, true, 0x44 * 2 ^ 39⟩ =
      .ret (0x44 * 2 ^ 39 + 0x11000, 0x11000, true)
        ⟨[⟨0, NOPG⟩, ⟨0, 0⟩, ⟨3, 9⟩], 16, 0, NOPG, true, 0x44 * 2 ^ 39⟩ ∧
    Refpg_new ⟨⟨[⟨0, NOPG⟩, ⟨0, 0⟩, ⟨3, 9⟩], 16, 1, NOPG, true, 0x44 * 2 ^ 39⟩,
        0x44 * 2 ^ 39 + 0x5000, fun _ _ => 0⟩ =
      .ret (0x44 * 2 ^ 39 + 0x11000, 0x11000, true)
        ⟨⟨[⟨0, NOPG⟩, ⟨0, 0⟩, ⟨3, 9⟩], 16, 0, NOPG, true, 0x44 * 2 ^ 39⟩,
          0x44 * 2 ^ 39 + 0x5000,
          copyPg (fun _ _ => 0) (0x44 * 2 ^ 39 + 0x11000) (0x44 * 2 ^ 39 + 0x5000)⟩ :=
  ⟨by decide,
    (free_then_allocate ⟨[⟨0, NOPG⟩, ⟨1, 7⟩, ⟨3, 9⟩], 16, 0, NOPG, true, 0x44 * 2 ^ 39⟩
      0x11234 1 ⟨1, 7⟩ rfl (by decide) (by rfl) (by decide) (by rfl) rfl).1,
    (free_then_allocate ⟨[⟨0, NOPG⟩, ⟨1, 7⟩, ⟨3, 9⟩], 16, 0, NOPG, true, 0x44 * 2 ^ 39⟩
      0x11234 1 ⟨1, 7⟩ rfl (by decide) (by rfl) (by decide) (by rfl) rfl).2.1,
    (free_then_allocate ⟨[⟨0, NOPG⟩, ⟨1, 7⟩, ⟨3, 9⟩], 16, 0, NOPG, true, 0x44 * 2 ^ 39⟩
      0x11234 1 ⟨1, 7⟩ rfl (by decide) (by rfl) (by decide) (by rfl) rfl).2.2
      (0x44 * 2 ^ 39 + 0x5000) (fun _ _ => 0) (by decide) (by decide)⟩

/-! ## Refcount non-negativity -/

theorem Nonneg_set {pgs : List Physpg_t} (h : Nonneg pgs) (i : Nat) (a : Physpg_t)
    (ha : 0 ≤ a.refcnt) : Nonneg (pgs.set i a) := by
  intro pg hpg
  rcases List.mem_or_eq_of_mem_set hpg with h1 | h1
  · exact h pg h1
  · rw [h1]; exact ha

theorem Nonneg_setNexti {pgs : List Physpg_t} (h : Nonneg pgs) (i v : Nat) :
    Nonneg (setNexti pgs i v) := by
  unfold setNexti
  cases hpg : pgs[i]? with
  | none => exact h
  | some pg => exact Nonneg_set h i _ (h pg (List.getElem?_mem hpg))

/-- A pop changes nothing but the head it pops, whatever its outcome. -/
theorem _phys_new_state (phys : Physmem_t) (fl : Flist) :
    (_phys_new phys fl).state = phys ∨
    ∃ pg, phys.pgs[phys.head fl]? = some pg ∧
      (_phys_new phys fl).state = phys.setHead fl pg.nexti := by
  unfold _phys_new
  by_cases hinit : phys.dmapinit = true
  · simp only [hinit, Bool.not_true, Bool.false_eq_true, if_false]
    by_cases hne : phys.head fl = NOPG
    · simp only [hne, ne_eq, not_true_eq_false, if_false]
      exact Or.inl rfl
    · simp only [hne, ne_eq, not_false_eq_true, if_true]
      cases hpg : phys.pgs[phys.head fl]? with
      | none => exact Or.inl rfl
      | some pg =>
        refine Or.inr ⟨pg, rfl, ?_⟩
        simp only
        by_cases hr : pg.refcnt < 0
        · simp only [hr, if_true]; rfl
        · simp only [hr, if_false]
          cases Dmap (phys.setHead fl pg.nexti)
              (((phys.head fl + phys.startn) % 2 ^ 32 * 2 ^ PGSHIFT) % 2 ^ 64) with
          | error e => rfl
          | ok v => rfl
  · simp only [Bool.not_eq_true] at hinit
    simp only [hinit, Bool.not_false, if_true]
    exact Or.inl rfl

theorem _phys_new_pgs (phys : Physmem_t) (fl : Flist) :
    (_phys_new phys fl).state.pgs = phys.pgs := by
  rcases _phys_new_state phys fl with h | ⟨pg, _, h⟩
  · rw [h]
  · rw [h, setHead_pgs]

theorem Refpg_new_nozero_pgs (phys : Physmem_t) :
    (Refpg_new_nozero phys).state.pgs = phys.pgs := by
  have h := _phys_new_pgs phys .freei
  unfold Refpg_new_nozero _refpg_new
  cases hq : _phys_new phys .freei with
  | fatal e s => rw [hq] at h; exact h
  | ret r s =>
    rw [hq] at h
    obtain ⟨pg, p_pg, ok⟩ := r
    cases ok <;> exact h

theorem Refpg_new_pgs (w : World) : (Refpg_new w).state.Physmem.pgs = w.Physmem.pgs := by
  have h := _phys_new_pgs w.Physmem .freei
  unfold Refpg_new _refpg_new
  by_cases hinit : w.Physmem.dmapinit = true
  · rw [if_neg (by simp [hinit])]
    cases hq : _phys_new w.Physmem .freei with
    | fatal e s => rw [hq] at h; exact h
    | ret r s =>
      rw [hq] at h
      obtain ⟨pg, p_pg, ok⟩ := r
      cases ok
      · exact h
      · by_cases hnil : w.Zeropg = 0 ∨ pg = 0
        · simp only [Bool.not_true, Bool.false_eq_true, if_false, hnil, if_true]
          exact h
        · simp only [Bool.not_true, Bool.false_eq_true, if_false, hnil]
          exact h
  · rw [if_pos (by simpa using hinit)]
    rfl

theorem Pmap_new_pgs (w : World) : (Pmap_new w).state.Physmem.pgs = w.Physmem.pgs := by
  have h := _phys_new_pgs w.Physmem .pmaps
  unfold Pmap_new
  cases hq : _phys_new w.Physmem .pmaps with
  | fatal e s => rw [hq] at h; exact h
  | ret r s =>
    rw [hq] at h
    obtain ⟨a, b, ok⟩ := r
    cases ok
    · simp only [Bool.false_eq_true, if_false]
      rw [Refpg_new_pgs]
      exact h
    · exact h

theorem AddInt32_eq {pgs : List Physpg_t} {idx : Nat} {pg : Physpg_t} (delta : Int)
    (h : pgs[idx]? = some pg) :
    AddInt32 pgs idx delta
      = (pgs.set idx ⟨wrap32 (pg.refcnt + delta), pg.nexti⟩, wrap32 (pg.refcnt + delta)) := by
  simp only [AddInt32, h]

theorem getElem?_of_refaddr {phys : Physmem_t} {p idx : Nat} (h : _refaddr phys p = .ok idx) :
    ∃ pg, phys.pgs[idx]? = some pg := by
  have hlt := _refaddr_lt h
  exact ⟨phys.pgs[idx], List.getElem?_eq_getElem hlt⟩

theorem _refdec_nonneg {phys : Physmem_t} {p : Nat} {r : Bool × Nat} {s : Physmem_t}
    (hn : Nonneg phys.pgs) (h : _refdec phys p = .ret r s) :
    Nonneg s.pgs ∧ r.2 < s.pgs.length ∧ s.freei = phys.freei ∧ s.pmaps = phys.pmaps := by
  cases h1 : _refaddr phys p with
  | error e => simp only [_refdec, h1] at h; cases h
  | ok idx =>
    obtain ⟨pg, h2⟩ := getElem?_of_refaddr h1
    rw [_refdec_eq h1 h2] at h
    split at h
    · cases h
    · rename_i hc
      cases h
      refine ⟨Nonneg_set hn _ _ (by simpa using hc), ?_, rfl, rfl⟩
      simp only [List.length_set]
      exact _refaddr_lt h1

/-- C4 (as stated) fails for `Refcnt`: on a frame whose refcount is the largest
`int32`, `Refcnt` returns normally (with the wrapped value `-2^31`) and leaves
a negative refcount, starting from a state in which every refcount is `≥ 0`. -/
theorem Refcnt_wrap_counterexample :
    Nonneg [⟨2147483647, NOPG⟩] ∧
    Refcnt ⟨[⟨2147483647, NOPG⟩], 0, NOPG, NOPG, true, 0x44 * 2 ^ 39⟩ 0 =
      .ret (-2147483648) ⟨[⟨-2147483648, NOPG⟩], 0, NOPG, NOPG, true, 0x44 * 2 ^ 39⟩ ∧
    ¬ Nonneg [⟨-2147483648, NOPG⟩] := by
  refine ⟨by decide, by rfl, by decide⟩

/-- C4 (amended): from any state in which every frame's refcount is `≥ 0`,
each of `Refup`, `Refdown`, `Dec_pmap`, `Refpg_new`, `Refpg_new_nozero` and
`Pmap_new`, whenever it returns normally, yields a state in which every
refcount is still `≥ 0`; `Refcnt` does so whenever the refcount of the frame it
increments is below the largest `int32` value `2^31 - 1`. -/
theorem refcnt_nonneg_preserved (w : World) (hn : Nonneg w.Physmem.pgs) :
    (∀ p c s, Refcnt w.Physmem p = .ret c s →
      (∀ idx pg, _refaddr w.Physmem p = .ok idx → w.Physmem.pgs[idx]? = some pg →
        pg.refcnt < 2 ^ 31 - 1) → Nonneg s.pgs) ∧
    (∀ p s, Refup w.Physmem p = .ret () s → Nonneg s.pgs) ∧
    (∀ p b s, Refdown w.Physmem p = .ret b s → Nonneg s.pgs) ∧
    (∀ p s, Dec_pmap w.Physmem p = .ret () s → Nonneg s.pgs) ∧
    (∀ r s, Refpg_new w = .ret r s → Nonneg s.Physmem.pgs) ∧
    (∀ r s, Refpg_new_nozero w.Physmem = .ret r s → Nonneg s.pgs) ∧
    (∀ r s, Pmap_new w = .ret r s → Nonneg s.Physmem.pgs) := by
  refine ⟨?_, ?_, ?_, ?_, ?_, ?_, ?_⟩
  · intro p c s h hmax
    cases h1 : _refaddr w.Physmem p with
    | error e => simp only [Refcnt, h1] at h; cases h
    | ok idx =>
      obtain ⟨pg, h2⟩ := getElem?_of_refaddr h1
      simp only [Refcnt, h1, AddInt32_eq 1 h2] at h
      cases h
      have hlo := hn pg (List.getElem?_mem h2)
      have hhi := hmax idx pg h1 h2
      refine Nonneg_set hn _ _ ?_
      show 0 ≤ wrap32 (pg.refcnt + 1)
      rw [wrap32_id _ (by omega) (by omega)]
      omega
  · intro p s h
    cases h1 : _refaddr w.Physmem p with
    | error e => simp only [Refup, h1] at h; cases h
    | ok idx =>
      obtain ⟨pg, h2⟩ := getElem?_of_refaddr h1
      simp only [Refup, h1, AddInt32_eq 1 h2] at h
      split at h
      · cases h
      · rename_i hc
        cases h
        exact Nonneg_set hn _ _ (by simp only; omega)
  · intro p b s h
    unfold Refdown at h
    cases hq : _refdec w.Physmem p with
    | fatal e s1 => rw [hq] at h; cases h
    | ret r s1 =>
      obtain ⟨add, idx⟩ := r
      have hs := (_refdec_nonneg hn hq).1
      have hl : idx < s1.pgs.length := (_refdec_nonneg hn hq).2.1
      rw [hq] at h
      simp only at h
      cases add
      · simp only [Bool.false_eq_true, if_false] at h
        cases h; exact hs
      · simp only [if_true, _reffree, hl] at h
        cases h
        exact Nonneg_setNexti hs _ _
  · intro p s h
    unfold Dec_pmap _phys_put at h
    cases hq : _refdec w.Physmem p with
    | fatal e s1 => rw [hq] at h; cases h
    | ret r s1 =>
      obtain ⟨add, idx⟩ := r
      have hs := (_refdec_nonneg hn hq).1
      have hl : idx < s1.pgs.length := (_refdec_nonneg hn hq).2.1
      rw [hq] at h
      simp only at h
      cases add
      · simp only [Bool.false_eq_true, if_false] at h
        cases h; exact hs
      · simp only [if_true, hl] at h
        cases h
        rw [setHead_pgs]
        exact Nonneg_setNexti hs _ _
  · intro r s h
    have hp := Refpg_new_pgs w
    rw [h] at hp
    simp only [Outcome.state] at hp
    rw [hp]; exact hn
  · intro r s h
    have hp := Refpg_new_nozero_pgs w.Physmem
    rw [h] at hp
    simp only [Outcome.state] at hp
    rw [hp]; exact hn
  · intro r s h
    have hp := Pmap_new_pgs w
    rw [h] at hp
    simp only [Outcome.state] at hp
    rw [hp]; exact hn

theorem refcnt_nonneg_preserved_witness :
    Nonneg [⟨0, NOPG⟩, ⟨1, 7⟩, ⟨3, 9⟩] ∧
    Refdown ⟨[⟨0, NOPG⟩, ⟨1, 7⟩, ⟨3, 9⟩], 16, 0, NOPG, true, 0x44 * 2 ^ 39⟩ 0x11234
      = .ret true ⟨[⟨0, NOPG⟩, ⟨0, 0⟩, ⟨3, 9⟩], 16, 1, NOPG, true, 0x44 * 2 ^ 39⟩ ∧
    Nonneg [⟨0, NOPG⟩, ⟨0, 0⟩, ⟨3, 9⟩] :=
  ⟨by decide, rfl,
    (refcnt_nonneg_preserved
      ⟨⟨[⟨0, NOPG⟩, ⟨1, 7⟩, ⟨3, 9⟩], 16, 0, NOPG, true, 0x44 * 2 ^ 39⟩, 0, fun _ _ => 0⟩
      (by decide)).2.2.1 0x11234 true
      ⟨[⟨0, NOPG⟩, ⟨0, 0⟩, ⟨3, 9⟩], 16, 1, NOPG, true, 0x44 * 2 ^ 39⟩ (by rfl)⟩

/-! ## Free-list chains and exhaustion -/

theorem Chain.functional {pgs : List Physpg_t} :
    ∀ {l1 l2 : List Nat} {h : Nat}, Chain pgs h l1 → Chain pgs h l2 → l1 = l2
  | [], [], _, _, _ => rfl
  | [], j :: l2, h, h1, h2 => by
    simp only [Chain] at h1 h2
    exact absurd (h2.1.symm.trans h1) h2.2.1
  | i :: l1, [], h, h1, h2 => by
    simp only [Chain] at h1 h2
    exact absurd (h1.1.symm.trans h2) h1.2.1
  | i :: l1, j :: l2, h, h1, h2 => by
    simp only [Chain] at h1 h2
    obtain ⟨e1, _, pg1, hp1, c1⟩ := h1
    obtain ⟨e2, _, pg2, hp2, c2⟩ := h2
    have hij : i = j := e1.symm.trans e2
    subst hij
    rw [hp1] at hp2
    cases hp2
    rw [Chain.functional c1 c2]

theorem Chain.suffix {pgs : List Physpg_t} :
    ∀ {l1 : List Nat} {h i : Nat} {l2 : List Nat},
      Chain pgs h (l1 ++ i :: l2) → Chain pgs i (i :: l2)
  | [], h, i, l2, hc => by
    simp only [List.nil_append, Chain] at hc
    unfold Chain
    exact ⟨rfl, hc.2.1, hc.2.2⟩
  | j :: l1, h, i, l2, hc => by
    simp only [List.cons_append, Chain] at hc
    obtain ⟨_, _, pg, _, c⟩ := hc
    exact Chain.suffix c

/-- A chain that reaches the terminator visits no frame twice (it is acyclic). -/
theorem Chain.nodup {pgs : List Physpg_t} :
    ∀ {l : List Nat} {h : Nat}, Chain pgs h l → l.Nodup
  | [], _, _ => List.nodup_nil
  | i :: l, h, hc => by
    have hc' := hc
    simp only [Chain] at hc
    obtain ⟨e, hne, pg, hp, c⟩ := hc
    refine List.nodup_cons.mpr ⟨?_, Chain.nodup c⟩
    intro hmem
    obtain ⟨l1, l2, hl⟩ := List.append_of_mem hmem
    have c2 : Chain pgs i (i :: l2) := by
      rw [hl] at c
      exact Chain.suffix c
    have c1 : Chain pgs i (i :: l) := by
      rw [e] at hc'
      exact hc'
    have heq := Chain.functional c1 c2
    have hlen := congrArg List.length heq
    rw [hl] at hlen
    simp only [List.length_cons, List.length_append] at hlen
    omega

theorem _phys_new_negative (phys : Physmem_t) (fl : Flist) (pg : Physpg_t)
    (hinit : phys.dmapinit = true) (hne : phys.head fl ≠ NOPG)
    (hpg : phys.pgs[phys.head fl]? = some pg) (href : pg.refcnt < 0) :
    _phys_new phys fl = .fatal "negative ref count" (phys.setHead fl pg.nexti) := by
  simp only [_phys_new, hinit, Bool.not_true, Bool.false_eq_true, if_false, hne, ne_eq,
    not_false_eq_true, if_true, hpg, href]

/-- C2 (as stated) fails: in an initialised state whose general free list is the
one-frame chain `[0]` (frame address `0 < 2^39`), the first `Refpg_new_nozero`
does not succeed; it is fatal, because the frame on the list has a negative
refcount. -/
theorem exhaustion_counterexample :
    Chain [⟨-1, NOPG⟩] 0 [0] ∧
    frameaddr ⟨[⟨-1, NOPG⟩], 0, 0, NOPG, true, 0x44 * 2 ^ 39⟩ 0 < 2 ^ 39 ∧
    allocN 1 ⟨[⟨-1, NOPG⟩], 0, 0, NOPG, true, 0x44 * 2 ^ 39⟩ =
      .fatal "negative ref count" ⟨[⟨-1, NOPG⟩], 0, NOPG, NOPG, true, 0x44 * 2 ^ 39⟩ := by
  refine ⟨?_, by decide, by rfl⟩
  simp [Chain, NOPG]

/-- C2 (amended): for every `N` and every initialised state whose general free
list is a terminated (hence acyclic) chain `l` of `N` frames, all with
addresses below `2^39` and all with refcount `≥ 0`, `N` successive
`Refpg_new_nozero` calls all succeed and return the frames of the chain in
chain order starting at the head, each exactly once; the `(N+1)`-th call
returns `(nil, 0, false)` and leaves the state unchanged. -/
theorem exhaustion (l : List Nat) (phys : Physmem_t)
    (hinit : phys.dmapinit = true) (hch : Chain phys.pgs phys.freei l)
    (haddr : ∀ i ∈ l, frameaddr phys i < 2 ^ 39)
    (href : ∀ i ∈ l, ∀ pg, phys.pgs[i]? = some pg → 0 ≤ pg.refcnt) :
    allocN l.length phys =
      .ret (l.map fun i => ((phys._vdirect + frameaddr phys i) % 2 ^ 64, frameaddr phys i, true))
        { phys with freei := NOPG } ∧
    Refpg_new_nozero { phys with freei := NOPG } = .ret (0, 0, false) { phys with freei := NOPG } ∧
    l.Nodup := by
  refine ⟨?_, Refpg_new_nozero_empty _ hinit rfl, Chain.nodup hch⟩
  induction l generalizing phys with
  | nil =>
    simp only [Chain] at hch
    simp only [List.length_nil, allocN, List.map_nil]
    rw [← hch]
  | cons i l ih =>
    simp only [Chain] at hch
    obtain ⟨e, hne, pg, hp, c⟩ := hch
    have h1 := Refpg_new_nozero_ok phys pg hinit (by rw [e]; exact hne) (by rw [e]; exact hp)
      (href i (List.mem_cons_self _ _) pg hp)
      (by rw [e]; exact haddr i (List.mem_cons_self _ _))
    have h2 := ih { phys with freei := pg.nexti } hinit c
      (fun j hj => haddr j (List.mem_cons_of_mem _ hj))
      (fun j hj => href j (List.mem_cons_of_mem _ hj))
    simp only [List.length_cons, allocN, h1, h2, List.map_cons, e]
    rfl

theorem exhaustion_witness :
    (true = true ∧ Chain [⟨0, 2⟩, ⟨5, 0⟩, ⟨0, NOPG⟩] 0 [0, 2]) ∧
    allocN 2 ⟨[⟨0, 2⟩, ⟨5, 0⟩, ⟨0, NOPG⟩], 16, 0, NOPG, true, 0x44 * 2 ^ 39⟩ =
      .ret [(0x44 * 2 ^ 39 + 0x10000, 0x10000, true), (0x44 * 2 ^ 39 + 0x12000, 0x12000, true)]
        ⟨[⟨0, 2⟩, ⟨5, 0⟩, ⟨0, NOPG⟩], 16, NOPG, NOPG, true, 0x44 * 2 ^ 39⟩ ∧
    Refpg_new_nozero ⟨[⟨0, 2⟩, ⟨5, 0⟩, ⟨0, NOPG⟩], 16, NOPG, NOPG, true, 0x44 * 2 ^ 39⟩ =
      .ret (0, 0, false) ⟨[⟨0, 2⟩, ⟨5, 0⟩, ⟨0, NOPG⟩], 16, NOPG, NOPG, true, 0x44 * 2 ^ 39⟩ :=
  have hc : Chain [⟨0, 2⟩, ⟨5, 0⟩, ⟨0, NOPG⟩] 0 [0, 2] := by simp [Chain, NOPG]
  have h := exhaustion [0, 2] ⟨[⟨0, 2⟩, ⟨5, 0⟩, ⟨0, NOPG⟩], 16, 0, NOPG, true, 0x44 * 2 ^ 39⟩
    rfl hc (by decide) (by decide)
  ⟨⟨rfl, hc⟩, h.1, h.2.1⟩

/-! ## Frame conservation -/

theorem Chain.lt_length {pgs : List Physpg_t} :
    ∀ {l : List Nat} {h : Nat}, Chain pgs h l → ∀ j ∈ l, j < pgs.length ∧ j ≠ NOPG
  | [], _, _, j, hj => by cases hj
  | i :: l, h, hc, j, hj => by
    simp only [Chain] at hc
    obtain ⟨_, hne, pg, hp, c⟩ := hc
    rcases List.mem_cons.mp hj with e | hm
    · subst e
      exact ⟨(List.getElem?_eq_some.mp hp).1, hne⟩
    · exact Chain.lt_length c j hm

theorem Chain.set_notin {pgs : List Physpg_t} (i : Nat) (a : Physpg_t) :
    ∀ {l : List Nat} {h : Nat}, Chain pgs h l → i ∉ l → Chain (pgs.set i a) h l
  | [], _, hc, _ => by simpa only [Chain] using hc
  | j :: l, h, hc, hni => by
    simp only [Chain] at hc
    obtain ⟨e, hne, pg, hp, c⟩ := hc
    have hij : i ≠ j := fun e => hni (by rw [e]; exact List.mem_cons_self _ _)
    unfold Chain
    refine ⟨e, hne, pg, ?_, Chain.set_notin i a c (fun hm => hni (List.mem_cons_of_mem _ hm))⟩
    rw [List.getElem?_set_ne hij]
    exact hp

theorem Chain.set_same_link {pgs : List Physpg_t} (i : Nat) (pg0 : Physpg_t) (c : Int)
    (h0 : pgs[i]? = some pg0) :
    ∀ {l : List Nat} {h : Nat}, Chain pgs h l → Chain (pgs.set i ⟨c, pg0.nexti⟩) h l
  | [], _, hc => by simpa only [Chain] using hc
  | j :: l, h, hc => by
    simp only [Chain] at hc
    obtain ⟨e, hne, pg, hp, cc⟩ := hc
    unfold Chain
    by_cases hij : i = j
    · subst hij
      rw [h0] at hp
      cases hp
      refine ⟨e, hne, ⟨c, pg0.nexti⟩, ?_, Chain.set_same_link i pg0 c h0 cc⟩
      exact List.getElem?_set_self (List.getElem?_eq_some.mp h0).1
    · refine ⟨e, hne, pg, ?_, Chain.set_same_link i pg0 c h0 cc⟩
      rw [List.getElem?_set_ne hij]
      exact hp

theorem countP_set {α : Type} (q : α → Bool) :
    ∀ (l : List α) (i : Nat) (a b : α), l[i]? = some b →
      (l.set i a).countP q + (if q b then 1 else 0) = l.countP q + (if q a then 1 else 0)
  | [], i, a, b, h => by simp at h
  | x :: l, 0, a, b, h => by
    simp only [List.getElem?_cons_zero, Option.some.injEq] at h
    subst h
    simp only [List.set_cons_zero, List.countP_cons]
    omega
  | x :: l, i + 1, a, b, h => by
    simp only [List.getElem?_cons_succ] at h
    have ih := countP_set q l i a b h
    simp only [List.set_cons_succ, List.countP_cons]
    omega

theorem Pgcount_r1_chain {pgs : List Physpg_t} :
    ∀ {l : List Nat} {h : Nat} (fuel r1 : Nat), Chain pgs h l → l.length < fuel →
      Pgcount_r1 pgs fuel h r1 = some (.ok (r1 + l.length))
  | [], h, fuel, r1, hc, hf => by
    simp only [Chain] at hc
    obtain ⟨f, rfl⟩ : ∃ f, fuel = f + 1 := ⟨fuel - 1, by simp at hf; omega⟩
    simp [Pgcount_r1, hc]
  | i :: l, h, fuel, r1, hc, hf => by
    simp only [Chain] at hc
    obtain ⟨e, hne, pg, hp, c⟩ := hc
    obtain ⟨f, rfl⟩ : ∃ f, fuel = f + 1 := ⟨fuel - 1, by simp at hf; omega⟩
    subst e
    have ih := Pgcount_r1_chain f (r1 + 1) c (by simp at hf; omega)
    simp only [Pgcount_r1, hne, ne_eq, not_false_eq_true, if_true, hp, ih, List.length_cons]
    congr 2
    omega

theorem _phys_new_oor (phys : Physmem_t) (fl : Flist)
    (hinit : phys.dmapinit = true) (hne : phys.head fl ≠ NOPG)
    (hpg : phys.pgs[phys.head fl]? = none) :
    _phys_new phys fl = .fatal "index out of range" phys := by
  simp only [_phys_new, hinit, Bool.not_true, Bool.false_eq_true, if_false, hne, ne_eq,
    not_false_eq_true, if_true, hpg]

theorem _phys_new_ceiling (phys : Physmem_t) (fl : Flist) (pg : Physpg_t)
    (hinit : phys.dmapinit = true) (hne : phys.head fl ≠ NOPG)
    (hpg : phys.pgs[phys.head fl]? = some pg) (href : 0 ≤ pg.refcnt)
    (haddr : 2 ^ 39 ≤ frameaddr phys (phys.head fl)) :
    _phys_new phys fl = .fatal "direct map not large enough" (phys.setHead fl pg.nexti) := by
  have hr : ¬ pg.refcnt < 0 := by omega
  unfold frameaddr at haddr
  have hm : ((phys.head fl + phys.startn) % 2 ^ 32 * 2 ^ PGSHIFT) % 2 ^ 64
      = (phys.head fl + phys.startn) % 2 ^ 32 * 4096 := by
    unfold PGSHIFT; omega
  simp only [_phys_new, hinit, Bool.not_true, Bool.false_eq_true, if_false, hne, ne_eq,
    not_false_eq_true, if_true, hpg, hr, hm, Dmap_error _ _ haddr]

/-- Inversion of a successful pop. -/
theorem _phys_new_ret_true {phys : Physmem_t} {fl : Flist} {v p : Nat} {s : Physmem_t}
    (h : _phys_new phys fl = .ret (v, p, true) s) :
    phys.dmapinit = true ∧ phys.head fl ≠ NOPG ∧
    ∃ pg, phys.pgs[phys.head fl]? = some pg ∧ 0 ≤ pg.refcnt ∧
      p = frameaddr phys (phys.head fl) ∧ p < 2 ^ 39 ∧
      v = (phys._vdirect + p) % 2 ^ 64 ∧ s = phys.setHead fl pg.nexti := by
  cases hinit : phys.dmapinit with
  | false => rw [_phys_new_uninit phys fl hinit] at h; cases h
  | true =>
    by_cases hne : phys.head fl = NOPG
    · rw [_phys_new_empty phys fl hinit hne] at h; cases h
    · cases hpg : phys.pgs[phys.head fl]? with
      | none => rw [_phys_new_oor phys fl hinit hne hpg] at h; cases h
      | some pg =>
        by_cases href : pg.refcnt < 0
        · rw [_phys_new_negative phys fl pg hinit hne hpg href] at h; cases h
        · by_cases haddr : frameaddr phys (phys.head fl) < 2 ^ 39
          · rw [_phys_new_ok phys fl pg hinit hne hpg (by omega) haddr] at h
            cases h
            exact ⟨rfl, hne, pg, rfl, by omega, rfl, haddr, rfl, rfl⟩
          · rw [_phys_new_ceiling phys fl pg hinit hne hpg (by omega) (by omega)] at h
            cases h

/-- Inversion of a pop that reports exhaustion. -/
theorem _phys_new_ret_false {phys : Physmem_t} {fl : Flist} {v p : Nat} {s : Physmem_t}
    (h : _phys_new phys fl = .ret (v, p, false) s) :
    phys.dmapinit = true ∧ phys.head fl = NOPG ∧ v = 0 ∧ p = 0 ∧ s = phys := by
  cases hinit : phys.dmapinit with
  | false => rw [_phys_new_uninit phys fl hinit] at h; cases h
  | true =>
    by_cases hne : phys.head fl = NOPG
    · rw [_phys_new_empty phys fl hinit hne] at h; cases h
      exact ⟨rfl, hne, rfl, rfl, rfl⟩
    · rcases _phys_new_nonempty phys fl hne with ⟨e, s1, h1⟩ | ⟨v1, q, s1, h1⟩
      · rw [h1] at h; cases h
      · rw [h1] at h; cases h

theorem Refpg_new_nozero_eq (phys : Physmem_t) : Refpg_new_nozero phys = _phys_new phys .freei := by
  unfold Refpg_new_nozero _refpg_new
  cases hq : _phys_new phys .freei with
  | fatal e s => rfl
  | ret r s =>
    obtain ⟨v, p, ok⟩ := r
    cases ok
    · obtain ⟨_, _, hv, hp, _⟩ := _phys_new_ret_false hq
      subst hv hp
      rfl
    · rfl

/-- `Refpg_new` and `Refpg_new_nozero` return the same result and leave the
same allocator state. -/
theorem Refpg_new_ret {w : World} {r : Nat × Nat × Bool} {s : World}
    (h : Refpg_new w = .ret r s) :
    Refpg_new_nozero w.Physmem = .ret r s.Physmem := by
  rw [Refpg_new_nozero_eq]
  unfold Refpg_new _refpg_new at h
  cases hinit : w.Physmem.dmapinit with
  | false => rw [if_pos (by simp [hinit])] at h; cases h
  | true =>
    rw [if_neg (by simp [hinit])] at h
    cases hq : _phys_new w.Physmem .freei with
    | fatal e s1 => rw [hq] at h; cases h
    | ret r1 s1 =>
      rw [hq] at h
      obtain ⟨v, p, ok⟩ := r1
      cases ok
      · obtain ⟨_, _, hv, hp, _⟩ := _phys_new_ret_false hq
        subst hv hp
        simp only [Bool.not_false, if_true] at h
        cases h; rfl
      · by_cases hnil : w.Zeropg = 0 ∨ v = 0
        · simp only [Bool.not_true, Bool.false_eq_true, if_false, hnil, if_true] at h
          cases h
        · simp only [Bool.not_true, Bool.false_eq_true, if_false, hnil] at h
          cases h; rfl

/-- Inversion of a normal return of `Refup`. -/
theorem Refup_ret {phys : Physmem_t} {p : Nat} {s : Physmem_t} (h : Refup phys p = .ret () s) :
    ∃ idx pg, _refaddr phys p = .ok idx ∧ phys.pgs[idx]? = some pg ∧
      0 < wrap32 (pg.refcnt + 1) ∧
      s = { phys with pgs := phys.pgs.set idx ⟨wrap32 (pg.refcnt + 1), pg.nexti⟩ } := by
  cases h1 : _refaddr phys p with
  | error e => simp only [Refup, h1] at h; cases h
  | ok idx =>
    obtain ⟨pg, h2⟩ := getElem?_of_refaddr h1
    simp only [Refup, h1, AddInt32_eq 1 h2] at h
    split at h
    · cases h
    · rename_i hc
      cases h
      exact ⟨idx, pg, rfl, h2, by omega, rfl⟩

theorem _refaddr_frameaddr (phys : Physmem_t) {i idx : Nat}
    (h : _refaddr phys (frameaddr phys i) = .ok idx) (hi : i < 2 ^ 32) : idx = i := by
  have := _refaddr_idx h
  unfold frameaddr at this
  omega

theorem Conserved_alloc {N : Nat} {phys s s1 : Physmem_t} {v p : Nat}
    (hc : Conserved N phys) (h : Refpg_new_nozero phys = .ret (v, p, true) s)
    (hu : Refup s p = .ret () s1) : Conserved N s1 := by
  rw [Refpg_new_nozero_eq] at h
  obtain ⟨_, hne, pg, hpg, _, hp, _, _, hs⟩ := _phys_new_ret_true h
  obtain ⟨hlen, hN, l, hch, hinv, hcount⟩ := hc
  simp only [Physmem_t.head] at hne hpg hp
  cases l with
  | nil => simp only [Chain] at hch; exact absurd hch hne
  | cons i l =>
    have hnd := Chain.nodup hch
    simp only [Chain] at hch
    obtain ⟨e, _, pg', hpg', c⟩ := hch
    rw [e] at hpg hp
    rw [hpg] at hpg'
    cases hpg'
    have hi : i < phys.pgs.length := (List.getElem?_eq_some.mp hpg).1
    have hrc : pg.refcnt = 0 := (hinv i pg hpg).2.2.mp (List.mem_cons_self _ _)
    obtain ⟨idx, pg2, ha, hpg2, _, hs1⟩ := Refup_ret hu
    subst hs hp
    have hidx : idx = i := _refaddr_frameaddr phys ha (by unfold NOPG at hN; omega)
    subst hidx
    have hpg2' : phys.pgs[idx]? = some pg2 := hpg2
    rw [hpg] at hpg2'
    cases hpg2'
    have hw : wrap32 (pg.refcnt + 1) = 1 := by rw [hrc]; decide
    rw [hw] at hs1
    subst hs1
    have hni : idx ∉ l := (List.nodup_cons.mp hnd).1
    refine ⟨by simpa only [List.length_set] using hlen, hN, l, ?_, ?_, ?_⟩
    · exact Chain.set_same_link idx pg 1 hpg c
    · intro j pgj hj
      by_cases hji : idx = j
      · subst hji
        have hj' : (phys.pgs.set idx ⟨1, pg.nexti⟩)[idx]? = some pgj := hj
        rw [List.getElem?_set_self hi] at hj'
        cases hj'
        refine ⟨by norm_num, by norm_num, ?_⟩
        simp only [hni, one_ne_zero]
      · have hj' : (phys.pgs.set idx ⟨1, pg.nexti⟩)[j]? = some pgj := hj
        rw [List.getElem?_set_ne hji] at hj'
        obtain ⟨h1, h2, h3⟩ := hinv j pgj hj'
        refine ⟨h1, h2, ?_⟩
        rw [← h3]
        simp only [List.mem_cons, Ne.symm hji, false_or]
    · have hcp := countP_set (fun pg => decide (0 < pg.refcnt)) phys.pgs idx ⟨1, pg.nexti⟩ pg hpg
      simp only [hrc, lt_self_iff_false, decide_False, Bool.false_eq_true, if_false,
        zero_lt_one, decide_True, if_true] at hcp
      show l.length + owned (phys.pgs.set idx ⟨1, pg.nexti⟩) = N
      simp only [List.length_cons, owned] at hcount ⊢
      omega

theorem Conserved_free {N : Nat} {phys s : Physmem_t} {p : Nat} {b : Bool}
    (hc : Conserved N phys) (h : Refdown phys p = .ret b s) : Conserved N s := by
  obtain ⟨hlen, hN, l, hch, hinv, hcount⟩ := hc
  cases h1 : _refaddr phys p with
  | error e => simp only [Refdown, _refdec, h1] at h; cases h
  | ok idx =>
    obtain ⟨pg, h2⟩ := getElem?_of_refaddr h1
    have hi : idx < phys.pgs.length := _refaddr_lt h1
    obtain ⟨hlo, hhi, hmem⟩ := hinv idx pg h2
    have hs0 := fun h0 => Refdown_zero h1 h2 h0
    have hs1 := fun h0 => Refdown_one h1 h2 h0
    have hs2 := fun h0 => Refdown_many h1 h2 h0 hhi
    have hcp := fun a => countP_set (fun pg => decide (0 < pg.refcnt)) phys.pgs idx a pg h2
    by_cases hz : pg.refcnt = 0
    · rw [hs0 hz] at h; cases h
    · have hni : idx ∉ l := fun hm => hz (hmem.mp hm)
      by_cases ho : pg.refcnt = 1
      · rw [hs1 ho] at h
        cases h
        refine ⟨by simpa only [List.length_set] using hlen, hN, idx :: l, ?_, ?_, ?_⟩
        · unfold Chain
          refine ⟨rfl, by omega, ⟨0, phys.freei⟩, List.getElem?_set_self hi, ?_⟩
          exact Chain.set_notin idx _ hch hni
        · intro j pgj hj
          by_cases hji : idx = j
          · subst hji
            have hj' : (phys.pgs.set idx ⟨0, phys.freei⟩)[idx]? = some pgj := hj
            rw [List.getElem?_set_self hi] at hj'
            cases hj'
            refine ⟨le_refl _, by norm_num, ?_⟩
            simp only [List.mem_cons, true_or]
          · have hj' : (phys.pgs.set idx ⟨0, phys.freei⟩)[j]? = some pgj := hj
            rw [List.getElem?_set_ne hji] at hj'
            obtain ⟨k1, k2, k3⟩ := hinv j pgj hj'
            refine ⟨k1, k2, ?_⟩
            rw [← k3]
            simp only [List.mem_cons, Ne.symm hji, false_or]
        · have hcp' := hcp ⟨0, phys.freei⟩
          simp only [ho, zero_lt_one, decide_True, if_true, lt_self_iff_false, decide_False,
            Bool.false_eq_true, if_false] at hcp'
          simp only [List.length_cons, owned] at hcount ⊢
          omega
      · have hgt : 1 < pg.refcnt := by omega
        rw [hs2 hgt] at h
        cases h
        refine ⟨by simpa only [List.length_set] using hlen, hN, l, ?_, ?_, ?_⟩
        · exact Chain.set_same_link idx pg _ h2 hch
        · intro j pgj hj
          by_cases hji : idx = j
          · subst hji
            have hj' : (phys.pgs.set idx ⟨pg.refcnt - 1, pg.nexti⟩)[idx]? = some pgj := hj
            rw [List.getElem?_set_self hi] at hj'
            cases hj'
            refine ⟨by simp only; omega, by simp only; omega, ?_⟩
            simp only [hni, false_iff]
            omega
          · have hj' : (phys.pgs.set idx ⟨pg.refcnt - 1, pg.nexti⟩)[j]? = some pgj := hj
            rw [List.getElem?_set_ne hji] at hj'
            exact hinv j pgj hj'
        · have hcp' := hcp ⟨pg.refcnt - 1, pg.nexti⟩
          have e1 : (0 : Int) < pg.refcnt := by omega
          have e2 : (0 : Int) < pg.refcnt - 1 := by omega
          simp only [e1, e2, decide_True, if_true] at hcp'
          simp only [owned] at hcount ⊢
          omega

theorem Conserved_step {N : Nat} {w w' : World} {op : Op}
    (hc : Conserved N w.Physmem) (h : step w op = .ret () w') : Conserved N w'.Physmem := by
  cases op with
  | newZero =>
    simp only [step] at h
    cases hq : Refpg_new w with
    | fatal e s => rw [hq] at h; cases h
    | ret r s =>
      obtain ⟨v, p, ok⟩ := r
      have hq' := Refpg_new_ret hq
      rw [hq] at h
      cases ok
      · simp only [Bool.false_eq_true, if_false] at h
        cases h
        rw [Refpg_new_nozero_eq] at hq'
        obtain ⟨_, _, _, _, hs⟩ := _phys_new_ret_false hq'
        rw [hs]; exact hc
      · simp only [if_true] at h
        cases hu : Refup s.Physmem p with
        | fatal e s1 => rw [hu] at h; cases h
        | ret u s1 =>
          rw [hu] at h
          cases h
          exact Conserved_alloc hc hq' hu
  | newRaw =>
    simp only [step] at h
    cases hq : Refpg_new_nozero w.Physmem with
    | fatal e s => rw [hq] at h; cases h
    | ret r s =>
      obtain ⟨v, p, ok⟩ := r
      rw [hq] at h
      cases ok
      · simp only [Bool.false_eq_true, if_false] at h
        cases h
        rw [Refpg_new_nozero_eq] at hq
        obtain ⟨_, _, _, _, hs⟩ := _phys_new_ret_false hq
        rw [hs]; exact hc
      · simp only [if_true] at h
        cases hu : Refup s p with
        | fatal e s1 => rw [hu] at h; cases h
        | ret u s1 =>
          rw [hu] at h
          cases h
          exact Conserved_alloc hc hq hu
  | free p =>
    simp only [step] at h
    cases hq : Refdown w.Physmem p with
    | fatal e s => rw [hq] at h; cases h
    | ret b s =>
      rw [hq] at h
      cases h
      exact Conserved_free hc hq

theorem Conserved_run {N : Nat} :
    ∀ (ops : List Op) {w w' : World}, Conserved N w.Physmem → run ops w = .ret () w' →
      Conserved N w'.Physmem
  | [], w, w', hc, h => by
    simp only [run] at h
    cases h; exact hc
  | op :: ops, w, w', hc, h => by
    simp only [run] at h
    cases hq : step w op with
    | fatal e s => rw [hq] at h; cases h
    | ret u s =>
      rw [hq] at h
      exact Conserved_run ops (Conserved_step hc hq) h

theorem Conserved_init {phys : Physmem_t} {l : List Nat}
    (hch : Chain phys.pgs phys.freei l)
    (hall : ∀ i, i < phys.pgs.length → i ∈ l)
    (hzero : ∀ pg ∈ phys.pgs, pg.refcnt = 0) : Conserved phys.pgs.length phys := by
  have hlt := Chain.lt_length hch
  have hnd := Chain.nodup hch
  have hfin : l.toFinset = Finset.range phys.pgs.length := by
    ext i
    simp only [List.mem_toFinset, Finset.mem_range]
    exact ⟨fun h => (hlt i h).1, hall i⟩
  have hlen : l.length = phys.pgs.length := by
    rw [← List.toFinset_card_of_nodup hnd, hfin, Finset.card_range]
  have hown : owned phys.pgs = 0 := by
    unfold owned
    rw [List.countP_eq_zero]
    intro pg hpg
    simp only [hzero pg hpg, lt_self_iff_false, decide_False, Bool.false_eq_true,
      not_false_eq_true]
  refine ⟨rfl, ?_, l, hch, ?_, by omega⟩
  · by_contra hgt
    exact (hlt NOPG (hall NOPG (by omega))).2 rfl
  · intro i pg hpg
    have h0 := hzero pg (List.getElem?_mem hpg)
    refine ⟨by omega, by omega, ?_⟩
    simp only [h0, iff_true]
    exact hall i (List.getElem?_eq_some.mp hpg).1

/-- C3 (as stated) fails: on a one-frame table whose frame is on the free list
with refcount `0`, one `Refpg_new_nozero` succeeds and leaves an empty free
list and no frame with a positive refcount (allocation does not take a
reference), so the sum is `0`, not `1`. -/
theorem conservation_counterexample :
    Chain [⟨0, NOPG⟩] 0 [0] ∧
    Refpg_new_nozero ⟨[⟨0, NOPG⟩], 0, 0, NOPG, true, 0x44 * 2 ^ 39⟩ =
      .ret (0x44 * 2 ^ 39, 0, true) ⟨[⟨0, NOPG⟩], 0, NOPG, NOPG, true, 0x44 * 2 ^ 39⟩ ∧
    Pgcount_r1 [⟨0, NOPG⟩] 2 NOPG 0 = some (.ok 0) ∧
    owned [⟨0, NOPG⟩] = 0 ∧ 0 + 0 ≠ 1 := by
  refine ⟨by simp [Chain, NOPG], by rfl, by rfl, by rfl, by decide⟩

/-- C3 (amended): starting from an `N`-frame table in which every frame is on
the general free list with refcount `0`, after every finite sequence of
operations that all return normally, each being an allocation (`Refpg_new` or
`Refpg_new_nozero`) followed on success by the caller's `Refup` of the returned
frame, or a free (`Refdown`), the length of the free list (as counted by the
loop of `Pgcount`) plus the number of frames with refcount `> 0` equals `N`. -/
theorem frame_conservation (w w' : World) (l : List Nat) (ops : List Op)
    (hch : Chain w.Physmem.pgs w.Physmem.freei l)
    (hall : ∀ i, i < w.Physmem.pgs.length → i ∈ l)
    (hzero : ∀ pg ∈ w.Physmem.pgs, pg.refcnt = 0)
    (hrun : run ops w = .ret () w') :
    ∃ k, Pgcount_r1 w'.Physmem.pgs (w.Physmem.pgs.length + 1) w'.Physmem.freei 0 = some (.ok k) ∧
      k + owned w'.Physmem.pgs = w.Physmem.pgs.length := by
  obtain ⟨_, _, l', hch', _, hcount⟩ := Conserved_run ops (Conserved_init hch hall hzero) hrun
  refine ⟨l'.length, ?_, hcount⟩
  have h := Pgcount_r1_chain (w.Physmem.pgs.length + 1) 0 hch' (by omega)
  rw [h, Nat.zero_add]

theorem frame_conservation_witness :
    (run [.newRaw, .newZero, .free 0x10000, .newRaw, .free 0x11abc]
        ⟨⟨[⟨0, 1⟩, ⟨0, 2⟩, ⟨0, 3⟩, ⟨0, NOPG⟩], 16, 0, NOPG, true, 0x44 * 2 ^ 39⟩,
          0x44 * 2 ^ 39, fun _ _ => 0⟩).state.Physmem
      = ⟨[⟨1, 2⟩, ⟨0, 2⟩, ⟨0, 3⟩, ⟨0, NOPG⟩], 16, 1, NOPG, true, 0x44 * 2 ^ 39⟩ ∧
    ∃ k,
      Pgcount_r1
        (run [.newRaw, .newZero, .free 0x10000, .newRaw, .free 0x11abc]
          ⟨⟨[⟨0, 1⟩, ⟨0, 2⟩, ⟨0, 3⟩, ⟨0, NOPG⟩], 16, 0, NOPG, true, 0x44 * 2 ^ 39⟩,
            0x44 * 2 ^ 39, fun _ _ => 0⟩).state.Physmem.pgs
        (4 + 1)
        (run [.newRaw, .newZero, .free 0x10000, .newRaw, .free 0x11abc]
          ⟨⟨[⟨0, 1⟩, ⟨0, 2⟩, ⟨0, 3⟩, ⟨0, NOPG⟩], 16, 0, NOPG, true, 0x44 * 2 ^ 39⟩,
            0x44 * 2 ^ 39, fun _ _ => 0⟩).state.Physmem.freei 0 = some (.ok k) ∧
      k + owned
        (run [.newRaw, .newZero, .free 0x10000, .newRaw, .free 0x11abc]
          ⟨⟨[⟨0, 1⟩, ⟨0, 2⟩, ⟨0, 3⟩, ⟨0, NOPG⟩], 16, 0, NOPG, true, 0x44 * 2 ^ 39⟩,
            0x44 * 2 ^ 39, fun _ _ => 0⟩).state.Physmem.pgs = 4 :=
  ⟨by decide, frame_conservation
    ⟨⟨[⟨0, 1⟩, ⟨0, 2⟩, ⟨0, 3⟩, ⟨0, NOPG⟩], 16, 0, NOPG, true, 0x44 * 2 ^ 39⟩,
      0x44 * 2 ^ 39, fun _ _ => 0⟩ _ [0, 1, 2, 3]
    [.newRaw, .newZero, .free 0x10000, .newRaw, .free 0x11abc]
    (by simp [Chain, NOPG]) (by decide) (by decide) (by rfl)⟩


/-! ## Use before initialisation -/

theorem _refaddr_flag (phys : Physmem_t) (b : Bool) (p : Nat) :
    _refaddr { phys with dmapinit := b } p = _refaddr phys p := rfl

theorem _refdec_flag (phys : Physmem_t) (b : Bool) (p : Nat) :
    _refdec { phys with dmapinit := b } p =
      (_refdec phys p).mapState fun s => { s with dmapinit := b } := by
  cases h1 : _refaddr phys p with
  | error e =>
    have h1' : _refaddr { phys with dmapinit := b } p = .error e := h1
    simp only [_refdec, h1, h1']
    rfl
  | ok idx =>
    have h1' : _refaddr { phys with dmapinit := b } p = .ok idx := h1
    obtain ⟨pg, h2⟩ := getElem?_of_refaddr h1
    have h2' : ({ phys with dmapinit := b } : Physmem_t).pgs[idx]? = some pg := h2
    rw [_refdec_eq h1' h2', _refdec_eq h1 h2]
    split <;> rfl

theorem Dec_pmap_flag (phys : Physmem_t) (b : Bool) (p : Nat) :
    Dec_pmap { phys with dmapinit := b } p =
      (Dec_pmap phys p).mapState fun s => { s with dmapinit := b } := by
  unfold Dec_pmap _phys_put
  rw [_refdec_flag]
  cases hq : _refdec phys p with
  | fatal e s => rfl
  | ret r s =>
    obtain ⟨add, idx⟩ := r
    cases add
    · rfl
    · simp only [Outcome.mapState, if_true]
      by_cases hl : idx < s.pgs.length
      · simp only [hl, if_true]
        rfl
      · simp only [hl, if_false]

/-- C11 (as stated) fails for `Dec_pmap`: in a state whose `dmapinit` flag is
false, `Dec_pmap` on a root with refcount `2` returns normally (the refcount
becomes `1`) instead of failing fatally. -/
theorem Dec_pmap_uninit_counterexample :
    Dec_pmap ⟨[⟨2, NOPG⟩], 0, NOPG, NOPG, false, 0⟩ 0 =
      .ret () ⟨[⟨1, NOPG⟩], 0, NOPG, NOPG, false, 0⟩ := by
  rfl

/-- C11 (amended): in every state whose `dmapinit` flag is false, each of
`Refpg_new`, `Refpg_new_nozero` and `Pmap_new` fails fatally instead of
returning, for every free-list content.  `Dec_pmap` does not test the flag: for
every argument its outcome is the one it has in the initialised state, up to
the value of the flag itself. -/
theorem uninit_fatal (w : World) (hinit : w.Physmem.dmapinit = false) :
    Refpg_new w = .fatal "refpg_new" w ∧
    Refpg_new_nozero w.Physmem = .fatal "dmap not initted" w.Physmem ∧
    Pmap_new w = .fatal "dmap not initted" w ∧
    ∀ p, Dec_pmap w.Physmem p =
      (Dec_pmap { w.Physmem with dmapinit := true } p).mapState
        fun s => { s with dmapinit := false } := by
  refine ⟨?_, ?_, ?_, ?_⟩
  · rw [Refpg_new, if_pos (by simp [hinit])]
  · rw [Refpg_new_nozero, _refpg_new, _phys_new_uninit _ _ hinit]
  · rw [Pmap_new, _phys_new_uninit _ _ hinit]
  · intro p
    have h := Dec_pmap_flag { w.Physmem with dmapinit := true } false p
    rw [← h]
    congr 1
    rw [← hinit]

theorem uninit_fatal_witness :
    (false = false) ∧
    Pmap_new ⟨⟨[⟨0, NOPG⟩], 0, 0, 0, false, 0x44 * 2 ^ 39⟩, 0x44 * 2 ^ 39, fun _ _ => 0⟩ =
      .fatal "dmap not initted"
        ⟨⟨[⟨0, NOPG⟩], 0, 0, 0, false, 0x44 * 2 ^ 39⟩, 0x44 * 2 ^ 39, fun _ _ => 0⟩ :=
  ⟨rfl,
    (uninit_fatal ⟨⟨[⟨0, NOPG⟩], 0, 0, 0, false, 0x44 * 2 ^ 39⟩, 0x44 * 2 ^ 39, fun _ _ => 0⟩
      rfl).2.2.1⟩

/-! ## Zero fill -/

/-- Inversion of a successful `Refpg_new`. -/
theorem Refpg_new_ret_true {w s : World} {v p : Nat} (h : Refpg_new w = .ret (v, p, true) s) :
    _phys_new w.Physmem .freei = .ret (v, p, true) s.Physmem ∧
    s.Zeropg = w.Zeropg ∧ s.ram = copyPg w.ram v w.Zeropg ∧ w.Zeropg ≠ 0 ∧ v ≠ 0 := by
  unfold Refpg_new _refpg_new at h
  cases hinit : w.Physmem.dmapinit with
  | false => rw [if_pos (by simp [hinit])] at h; cases h
  | true =>
    rw [if_neg (by simp [hinit])] at h
    cases hq : _phys_new w.Physmem .freei with
    | fatal e s1 => rw [hq] at h; cases h
    | ret r1 s1 =>
      rw [hq] at h
      obtain ⟨v1, p1, ok⟩ := r1
      cases ok
      · simp only [Bool.not_false, if_true] at h
        cases h
      · by_cases hnil : w.Zeropg = 0 ∨ v1 = 0
        · simp only [Bool.not_true, Bool.false_eq_true, if_false, hnil, if_true] at h
          cases h
        · simp only [Bool.not_true, Bool.false_eq_true, if_false, hnil] at h
          cases h
          exact ⟨rfl, rfl, rfl, fun h0 => hnil (Or.inl h0), fun h0 => hnil (Or.inr h0)⟩

/-- C12: whenever `Refpg_new` succeeds and the template page `Zeropg` is all
zero, each of the 512 words of the returned frame reads as zero and the
contents of every other frame are unchanged; `Refpg_new_nozero` on the same
allocator state returns the same frame (same pointer, same address, same
allocator state afterwards) and, operating on the allocator state only, leaves
memory as it was. -/
theorem zero_fill (w s : World) (v p : Nat)
    (hz : ∀ i, w.ram w.Zeropg i = 0) (h : Refpg_new w = .ret (v, p, true) s) :
    (∀ i, s.ram v i = 0) ∧ (∀ a, a ≠ v → s.ram a = w.ram a) ∧
    Refpg_new_nozero w.Physmem = .ret (v, p, true) s.Physmem := by
  obtain ⟨h1, _, h3, _, _⟩ := Refpg_new_ret_true h
  refine ⟨?_, ?_, ?_⟩
  · intro i
    rw [h3]
    simp only [copyPg, if_true]
    exact hz i
  · intro a ha
    rw [h3]
    simp only [copyPg, ha, if_false]
  · rw [Refpg_new_nozero_eq]
    exact h1

theorem zero_fill_witness :
    (∀ i, (fun (a : Nat) (_ : Fin 512) => if a = 0x44 * 2 ^ 39 + 0x1000 then (0 : Int) else 7)
      (0x44 * 2 ^ 39 + 0x1000) i = 0) ∧
    ∀ i, (Refpg_new ⟨⟨[⟨0, NOPG⟩], 0, 0, NOPG, true, 0x44 * 2 ^ 39⟩, 0x44 * 2 ^ 39 + 0x1000,
      fun a _ => if a = 0x44 * 2 ^ 39 + 0x1000 then 0 else 7⟩).state.ram (0x44 * 2 ^ 39) i = 0 :=
  ⟨fun _ => by simp,
    (zero_fill ⟨⟨[⟨0, NOPG⟩], 0, 0, NOPG, true, 0x44 * 2 ^ 39⟩, 0x44 * 2 ^ 39 + 0x1000,
      fun a _ => if a = 0x44 * 2 ^ 39 + 0x1000 then 0 else 7⟩ _ (0x44 * 2 ^ 39) 0
      (fun _ => by simp) (by rfl)).1⟩

/-! ## Allocation takes no reference -/

/-- C13: `Refpg_new`, `Refpg_new_nozero` and `Pmap_new` leave the frame table
(every refcount, the returned frame's included) as it was, whatever their
outcome; so when a pop succeeds, the descriptor of the frame handed out, the
head `i` of the list popped, is the one it had on the list: a refcount of `0`
there is a refcount of exactly `0` after the call. -/
theorem alloc_takes_no_reference (w : World) :
    (Refpg_new w).state.Physmem.pgs = w.Physmem.pgs ∧
    (Refpg_new_nozero w.Physmem).state.pgs = w.Physmem.pgs ∧
    (Pmap_new w).state.Physmem.pgs = w.Physmem.pgs ∧
    ∀ fl v p s, _phys_new w.Physmem fl = .ret (v, p, true) s →
      p = frameaddr w.Physmem (w.Physmem.head fl) ∧
      ∀ pg, w.Physmem.pgs[w.Physmem.head fl]? = some pg → pg.refcnt = 0 →
        ∃ pg1, s.pgs[w.Physmem.head fl]? = some pg1 ∧ pg1.refcnt = 0 := by
  refine ⟨Refpg_new_pgs w, Refpg_new_nozero_pgs w.Physmem, Pmap_new_pgs w, ?_⟩
  intro fl v p s h
  obtain ⟨_, _, pg0, _, _, hp, _, _, hs⟩ := _phys_new_ret_true h
  refine ⟨hp, ?_⟩
  intro pg hpg hrc
  refine ⟨pg, ?_, hrc⟩
  rw [hs, setHead_pgs]
  exact hpg

theorem alloc_takes_no_reference_witness :
    _phys_new ⟨[⟨0, NOPG⟩, ⟨0, 0⟩], 16, 1, NOPG, true, 0x44 * 2 ^ 39⟩ .freei =
      .ret (0x44 * 2 ^ 39 + 0x11000, 0x11000, true)
        ⟨[⟨0, NOPG⟩, ⟨0, 0⟩], 16, 0, NOPG, true, 0x44 * 2 ^ 39⟩ ∧
    ∃ pg1, ([⟨0, NOPG⟩, ⟨0, 0⟩] : List Physpg_t)[1]? = some pg1 ∧ pg1.refcnt = 0 :=
  ⟨by rfl,
    ((alloc_takes_no_reference
      ⟨⟨[⟨0, NOPG⟩, ⟨0, 0⟩], 16, 1, NOPG, true, 0x44 * 2 ^ 39⟩, 0, fun _ _ => 0⟩).2.2.2
      .freei (0x44 * 2 ^ 39 + 0x11000) 0x11000
      ⟨[⟨0, NOPG⟩, ⟨0, 0⟩], 16, 0, NOPG, true, 0x44 * 2 ^ 39⟩ (by rfl)).2 ⟨0, 0⟩ (by rfl) rfl⟩

/-! ## `Refcnt` against `Refup` -/

/-- C17: for the frame `idx` that `p` addresses, with refcount `c`: `Refcnt`
returns `c + 1` wrapped to `int32` and stores it as the refcount, changing
nothing else; `Refup` fails fatally exactly when that new value is `≤ 0`, and
when it is positive `Refup` returns normally, leaving the very state `Refcnt`
leaves. -/
theorem Refcnt_Refup (phys : Physmem_t) (p idx : Nat) (pg : Physpg_t)
    (h1 : _refaddr phys p = .ok idx) (h2 : phys.pgs[idx]? = some pg) :
    Refcnt phys p =
      .ret (wrap32 (pg.refcnt + 1))
        { phys with pgs := phys.pgs.set idx ⟨wrap32 (pg.refcnt + 1), pg.nexti⟩ } ∧
    ((∃ e s, Refup phys p = .fatal e s) ↔ wrap32 (pg.refcnt + 1) ≤ 0) ∧
    (0 < wrap32 (pg.refcnt + 1) →
      Refup phys p =
        .ret () { phys with pgs := phys.pgs.set idx ⟨wrap32 (pg.refcnt + 1), pg.nexti⟩ }) ∧
    (∀ s, Refup phys p = .ret () s → ∀ c s1, Refcnt phys p = .ret c s1 → s = s1) := by
  have hc : Refcnt phys p =
      .ret (wrap32 (pg.refcnt + 1))
        { phys with pgs := phys.pgs.set idx ⟨wrap32 (pg.refcnt + 1), pg.nexti⟩ } := by
    simp only [Refcnt, h1, AddInt32_eq 1 h2]
  have hu : Refup phys p =
      if wrap32 (pg.refcnt + 1) ≤ 0 then
        .fatal "wut" { phys with pgs := phys.pgs.set idx ⟨wrap32 (pg.refcnt + 1), pg.nexti⟩ }
      else
        .ret () { phys with pgs := phys.pgs.set idx ⟨wrap32 (pg.refcnt + 1), pg.nexti⟩ } := by
    simp only [Refup, h1, AddInt32_eq 1 h2]
  refine ⟨hc, ⟨?_, ?_⟩, ?_, ?_⟩
  · rintro ⟨e, s, h⟩
    by_contra hpos
    rw [hu, if_neg hpos] at h
    cases h
  · intro hle
    rw [hu, if_pos hle]
    exact ⟨_, _, rfl⟩
  · intro hpos
    rw [hu, if_neg (by omega)]
  · intro s h c s1 hc1
    rw [hc] at hc1
    rw [hu] at h
    split at h
    · cases h
    · cases h; cases hc1; rfl

theorem Refcnt_Refup_witness :
    Refcnt ⟨[⟨0, NOPG⟩, ⟨1, 7⟩, ⟨3, 9⟩], 16, 0, NOPG, true, 0x44 * 2 ^ 39⟩ 0x11234 =
      .ret 2 ⟨[⟨0, NOPG⟩, ⟨2, 7⟩, ⟨3, 9⟩], 16, 0, NOPG, true, 0x44 * 2 ^ 39⟩ ∧
    Refup ⟨[⟨0, NOPG⟩, ⟨1, 7⟩, ⟨3, 9⟩], 16, 0, NOPG, true, 0x44 * 2 ^ 39⟩ 0x11234 =
      .ret () ⟨[⟨0, NOPG⟩, ⟨2, 7⟩, ⟨3, 9⟩], 16, 0, NOPG, true, 0x44 * 2 ^ 39⟩ :=
  ⟨(Refcnt_Refup ⟨[⟨0, NOPG⟩, ⟨1, 7⟩, ⟨3, 9⟩], 16, 0, NOPG, true, 0x44 * 2 ^ 39⟩ 0x11234 1 ⟨1, 7⟩
      (by rfl) (by rfl)).1,
    (Refcnt_Refup ⟨[⟨0, NOPG⟩, ⟨1, 7⟩, ⟨3, 9⟩], 16, 0, NOPG, true, 0x44 * 2 ^ 39⟩ 0x11234 1 ⟨1, 7⟩
      (by rfl) (by rfl)).2.2.1 (by decide)⟩

/-! ## Byte views -/

theorem and_PGOFFSET (p : Nat) : p &&& PGOFFSET = p % 4096 := by
  have h : PGOFFSET = 2 ^ 12 - 1 := by norm_num [PGOFFSET]
  rw [h, Nat.and_pow_two_sub_one_eq_mod]

/-- C19 (as stated) fails: with base offset `0` the physical address `0x123`
is below `2^39`, `Dmap` maps it to the nil pointer, and `Dmap8` fails fatally
(slicing through a nil pointer) instead of returning a view. -/
theorem Dmap8_nil_counterexample :
    0x123 < 2 ^ 39 ∧ Dmap ⟨[], 0, NOPG, NOPG, true, 0⟩ 0x123 = .ok 0 ∧
    Dmap8 ⟨[], 0, NOPG, NOPG, true, 0⟩ 0x123 = .error nilDeref := by
  have h : Dmap ⟨[], 0, NOPG, NOPG, true, 0⟩ 0x123 = .ok 0 := by
    rw [Dmap_ok _ _ (by norm_num)]
    rfl
  refine ⟨by decide, h, ?_⟩
  simp only [Dmap8, h, if_true]

/-- C19 (amended): for `p < 2^39` whose frame pointer `Dmap p` is not nil,
`Dmap8 p` is the byte view of the frame `Dmap p` that starts at byte offset
`p mod 4096` and has length `4096 - p mod 4096`; it is never empty and never
extends past the end of the frame.  For `p ≥ 2^39` it fails fatally, as it does
when `Dmap p` is the nil pointer. -/
theorem Dmap8_spec (phys : Physmem_t) (p : Nat) :
    (p < 2 ^ 39 →
      ∃ pg, Dmap phys p = .ok pg ∧
        (pg ≠ 0 →
          Dmap8 phys p = .ok ⟨pg, p % 4096, 4096 - p % 4096⟩ ∧
          0 < 4096 - p % 4096 ∧ p % 4096 + (4096 - p % 4096) ≤ 4096) ∧
        (pg = 0 → Dmap8 phys p = .error nilDeref)) ∧
    (2 ^ 39 ≤ p → Dmap8 phys p = .error "direct map not large enough") := by
  refine ⟨?_, ?_⟩
  · intro hp
    refine ⟨_, Dmap_ok phys p hp, ?_, ?_⟩
    · intro hne
      refine ⟨?_, by omega, by omega⟩
      have hle : p % 4096 ≤ 4096 := by omega
      have hsz : PGSIZE = 4096 := by norm_num [PGSIZE, PGSHIFT]
      simp only [Dmap8, Dmap_ok phys p hp, and_PGOFFSET, hsz, hle, if_true, hne, if_false]
    · intro h0
      simp only [Dmap8, Dmap_ok phys p hp, h0, if_true]
  · intro hp
    simp only [Dmap8, Dmap_error phys p hp]

theorem Dmap8_spec_witness :
    (0x12345 < 2 ^ 39 ∧ 0x44 * 2 ^ 39 + 0x12000 ≠ 0) ∧
    Dmap8 ⟨[], 0, NOPG, NOPG, true, 0x44 * 2 ^ 39⟩ 0x12345 =
      .ok ⟨0x44 * 2 ^ 39 + 0x12000, 0x345, 0xcbb⟩ := by
  obtain ⟨pg, h1, h2, _⟩ :=
    (Dmap8_spec ⟨[], 0, NOPG, NOPG, true, 0x44 * 2 ^ 39⟩ 0x12345).1 (by decide)
  have hpg : pg = 0x44 * 2 ^ 39 + 0x12000 := by
    rw [Dmap_ok _ _ (by norm_num)] at h1
    cases h1
    rfl
  subst hpg
  exact ⟨⟨by decide, by decide⟩, (h2 (by decide)).1⟩

/-! ## Allocation on a well-formed table -/

theorem _refaddr_frameaddr_ok (phys : Physmem_t) (i : Nat)
    (hi : i < phys.pgs.length) (h32 : i < 2 ^ 32) :
    _refaddr phys (frameaddr phys i) = .ok i := by
  have hidx : (_pg2pgn (frameaddr phys i) + (2 ^ 32 - phys.startn % 2 ^ 32)) % 2 ^ 32 = i := by
    unfold _pg2pgn frameaddr PGSHIFT
    omega
  simp only [_refaddr, hidx, hi, if_true]

theorem TableOk_setHead {phys : Physmem_t} (hok : TableOk phys) (fl : Flist) (pg : Physpg_t)
    (hpg : pg ∈ phys.pgs) : TableOk (phys.setHead fl pg.nexti) := by
  obtain ⟨h1, h2, h3, h4⟩ := hok
  cases fl
  · exact ⟨h1, h4 pg hpg, h3, h4⟩
  · exact ⟨h1, h2, h4 pg hpg, h4⟩

theorem TableOk_head {phys : Physmem_t} (hok : TableOk phys) (fl : Flist) :
    phys.head fl = NOPG ∨ phys.head fl < phys.pgs.length := by
  cases fl
  · exact hok.2.1
  · exact hok.2.2.1

/-- C20: in an initialised state whose table is well formed (every refcount
`≥ 0`, every head and link the terminator or a valid index), if the whole table
lies below the direct-map ceiling (`startn + len ≤ 2^27` page frames), a pop of
either list (`Refpg_new_nozero` is the pop of the general list, `Pmap_new`
starts with the pop of the page-table-root list) never fails fatally: it
reports exhaustion on an empty list and otherwise returns the head frame, whose
physical address maps back through `_refaddr` to exactly the popped index, in
a state that is again well formed.  Without the ceiling bound, a popped frame
at or above `2^39` makes the pop fail fatally in the state in which the frame
is already unlinked. -/
theorem alloc_no_fatal (phys : Physmem_t) (hinit : phys.dmapinit = true) (hok : TableOk phys) :
    Refpg_new_nozero phys = _phys_new phys .freei ∧
    (phys.startn + phys.pgs.length ≤ 2 ^ 27 →
      ∀ fl,
        (phys.head fl = NOPG ∧ _phys_new phys fl = .ret (0, 0, false) phys) ∨
        (phys.head fl ≠ NOPG ∧ ∃ pg, phys.pgs[phys.head fl]? = some pg ∧
          _phys_new phys fl =
            .ret ((phys._vdirect + frameaddr phys (phys.head fl)) % 2 ^ 64,
              frameaddr phys (phys.head fl), true) (phys.setHead fl pg.nexti) ∧
          _refaddr (phys.setHead fl pg.nexti) (frameaddr phys (phys.head fl))
            = .ok (phys.head fl) ∧
          TableOk (phys.setHead fl pg.nexti))) ∧
    (∀ fl pg, phys.head fl ≠ NOPG → phys.pgs[phys.head fl]? = some pg →
      2 ^ 39 ≤ frameaddr phys (phys.head fl) →
      _phys_new phys fl = .fatal "direct map not large enough" (phys.setHead fl pg.nexti) ∧
      (phys.setHead fl pg.nexti).head fl = pg.nexti) := by
  refine ⟨Refpg_new_nozero_eq phys, ?_, ?_⟩
  · intro hceil fl
    by_cases hne : phys.head fl = NOPG
    · exact Or.inl ⟨hne, _phys_new_empty phys fl hinit hne⟩
    · have hlt : phys.head fl < phys.pgs.length := by
        rcases TableOk_head hok fl with h | h
        · exact absurd h hne
        · exact h
      have hpg : phys.pgs[phys.head fl]? = some phys.pgs[phys.head fl] :=
        List.getElem?_eq_getElem hlt
      have hmem : phys.pgs[phys.head fl] ∈ phys.pgs := List.getElem?_mem hpg
      have haddr : (phys.head fl + phys.startn) % 2 ^ 32 * 4096 < 2 ^ 39 := by omega
      refine Or.inr ⟨hne, _, hpg, ?_, ?_, TableOk_setHead hok fl _ hmem⟩
      · exact _phys_new_ok phys fl _ hinit hne hpg (hok.1 _ hmem) haddr
      · have h := _refaddr_frameaddr_ok (phys.setHead fl (phys.pgs[phys.head fl]).nexti)
          (phys.head fl) (by rw [setHead_pgs]; exact hlt) (by omega)
        have hf : frameaddr (phys.setHead fl (phys.pgs[phys.head fl]).nexti) (phys.head fl)
            = frameaddr phys (phys.head fl) := by
          cases fl <;> rfl
        rw [hf] at h
        exact h
  · intro fl pg hne hpg haddr
    refine ⟨_phys_new_ceiling phys fl pg hinit hne hpg (hok.1 pg (List.getElem?_mem hpg)) haddr, ?_⟩
    cases fl <;> rfl

theorem alloc_no_fatal_witness :
    (true = true ∧
      TableOk ⟨[⟨0, NOPG⟩, ⟨1, NOPG⟩, ⟨0, 0⟩], 16, 2, NOPG, true, 0x44 * 2 ^ 39⟩ ∧
      16 + 3 ≤ 2 ^ 27) ∧
    (((2 : Nat) = NOPG ∧
        _phys_new ⟨[⟨0, NOPG⟩, ⟨1, NOPG⟩, ⟨0, 0⟩], 16, 2, NOPG, true, 0x44 * 2 ^ 39⟩ .freei =
          .ret (0, 0, false) ⟨[⟨0, NOPG⟩, ⟨1, NOPG⟩, ⟨0, 0⟩], 16, 2, NOPG, true, 0x44 * 2 ^ 39⟩) ∨
      ((2 : Nat) ≠ NOPG ∧ ∃ pg, ([⟨0, NOPG⟩, ⟨1, NOPG⟩, ⟨0, 0⟩] : List Physpg_t)[2]? = some pg ∧
        _phys_new ⟨[⟨0, NOPG⟩, ⟨1, NOPG⟩, ⟨0, 0⟩], 16, 2, NOPG, true, 0x44 * 2 ^ 39⟩ .freei =
          .ret ((0x44 * 2 ^ 39 + 0x12000) % 2 ^ 64, 0x12000, true)
            ⟨[⟨0, NOPG⟩, ⟨1, NOPG⟩, ⟨0, 0⟩], 16, pg.nexti, NOPG, true, 0x44 * 2 ^ 39⟩ ∧
        _refaddr ⟨[⟨0, NOPG⟩, ⟨1, NOPG⟩, ⟨0, 0⟩], 16, pg.nexti, NOPG, true, 0x44 * 2 ^ 39⟩ 0x12000
          = .ok 2 ∧
        TableOk ⟨[⟨0, NOPG⟩, ⟨1, NOPG⟩, ⟨0, 0⟩], 16, pg.nexti, NOPG, true, 0x44 * 2 ^ 39⟩)) :=
  ⟨⟨rfl, by unfold TableOk; decide, by decide⟩,
    (alloc_no_fatal ⟨[⟨0, NOPG⟩, ⟨1, NOPG⟩, ⟨0, 0⟩], 16, 2, NOPG, true, 0x44 * 2 ^ 39⟩
      rfl (by unfold TableOk; decide)).2.1 (by decide) .freei⟩

/-! ## Free-list well-formedness -/

/-- Inversion of a normal return of `_refdec`. -/
theorem _refdec_ret {phys s : Physmem_t} {p idx : Nat} {add : Bool}
    (h : _refdec phys p = .ret (add, idx) s) :
    ∃ pg, _refaddr phys p = .ok idx ∧ phys.pgs[idx]? = some pg ∧ pg.refcnt ≠ 0 ∧
      0 ≤ wrap32 (pg.refcnt + -1) ∧ add = decide (wrap32 (pg.refcnt + -1) = 0) ∧
      s = { phys with pgs := phys.pgs.set idx ⟨wrap32 (pg.refcnt + -1), pg.nexti⟩ } := by
  cases h1 : _refaddr phys p with
  | error e => simp only [_refdec, h1] at h; cases h
  | ok idx1 =>
    obtain ⟨pg, h2⟩ := getElem?_of_refaddr h1
    rw [_refdec_eq h1 h2] at h
    split at h
    · cases h
    · rename_i hc
      cases h
      refine ⟨pg, rfl, h2, ?_, by omega, rfl, rfl⟩
      intro h0
      rw [h0] at hc
      exact hc (by decide)

/-- Inversion of a normal return of `Refcnt`. -/
theorem Refcnt_ret {phys s : Physmem_t} {p : Nat} {c : Int} (h : Refcnt phys p = .ret c s) :
    ∃ idx pg, _refaddr phys p = .ok idx ∧ phys.pgs[idx]? = some pg ∧
      s = { phys with pgs := phys.pgs.set idx ⟨wrap32 (pg.refcnt + 1), pg.nexti⟩ } := by
  cases h1 : _refaddr phys p with
  | error e => simp only [Refcnt, h1] at h; cases h
  | ok idx =>
    obtain ⟨pg, h2⟩ := getElem?_of_refaddr h1
    simp only [Refcnt, h1, AddInt32_eq 1 h2] at h
    cases h
    exact ⟨idx, pg, rfl, h2, rfl⟩

theorem WellFormed_pop {phys s : Physmem_t} {l m : List Nat} {fl : Flist}
    {r : Nat × Nat × Bool} (hwf : WellFormed phys l m) (h : _phys_new phys fl = .ret r s) :
    ∃ l1 m1, WellFormed s l1 m1 := by
  obtain ⟨v, p, ok⟩ := r
  cases ok
  · obtain ⟨_, _, _, _, hs⟩ := _phys_new_ret_false h
    rw [hs]; exact ⟨l, m, hwf⟩
  · obtain ⟨_, hne, pg, hpg, _, _, _, _, hs⟩ := _phys_new_ret_true h
    obtain ⟨hl, hm, hd, hr⟩ := hwf
    subst hs
    cases fl
    · simp only [Physmem_t.head] at hne hpg
      cases l with
      | nil => simp only [Chain] at hl; exact absurd hl hne
      | cons i l =>
        simp only [Chain] at hl
        obtain ⟨e, _, pg1, hpg1, c⟩ := hl
        rw [e, hpg1] at hpg
        cases hpg
        refine ⟨l, m, c, hm, fun j hj => hd j (List.mem_cons_of_mem _ hj), ?_⟩
        intro j pgj hj hpj
        exact hr j pgj (hj.imp (List.mem_cons_of_mem _) id) hpj
    · simp only [Physmem_t.head] at hne hpg
      cases m with
      | nil => simp only [Chain] at hm; exact absurd hm hne
      | cons i m =>
        simp only [Chain] at hm
        obtain ⟨e, _, pg1, hpg1, c⟩ := hm
        rw [e, hpg1] at hpg
        cases hpg
        refine ⟨l, m, hl, c, fun j hj hjm => hd j hj (List.mem_cons_of_mem _ hjm), ?_⟩
        intro j pgj hj hpj
        exact hr j pgj (hj.imp id (List.mem_cons_of_mem _)) hpj

theorem WellFormed_set {phys : Physmem_t} {l m : List Nat} (hwf : WellFormed phys l m)
    (idx : Nat) (a : Physpg_t) (hl : idx ∉ l) (hm : idx ∉ m) :
    WellFormed { phys with pgs := phys.pgs.set idx a } l m := by
  obtain ⟨cl, cm, hd, hr⟩ := hwf
  refine ⟨Chain.set_notin idx a cl hl, Chain.set_notin idx a cm hm, hd, ?_⟩
  intro j pgj hj hpj
  have hne : idx ≠ j := by
    rintro rfl
    rcases hj with h | h
    · exact hl h
    · exact hm h
  have hpj' : (phys.pgs.set idx a)[j]? = some pgj := hpj
  rw [List.getElem?_set_ne hne] at hpj'
  exact hr j pgj hj hpj'

theorem WellFormed_push {phys : Physmem_t} {l m : List Nat} (hwf : WellFormed phys l m)
    (fl : Flist) (idx : Nat) (hi : idx < phys.pgs.length) (hl : idx ∉ l) (hm : idx ∉ m) :
    ∃ l1 m1, WellFormed
      (({ phys with pgs := phys.pgs.set idx ⟨0, phys.head fl⟩ } : Physmem_t).setHead fl idx)
      l1 m1 := by
  have hset := WellFormed_set hwf idx ⟨0, phys.head fl⟩ hl hm
  obtain ⟨cl, cm, hd, hr⟩ := hset
  have hnew : (phys.pgs.set idx ⟨0, phys.head fl⟩)[idx]? = some ⟨0, phys.head fl⟩ :=
    List.getElem?_set_self hi
  cases fl
  · by_cases hn : idx = NOPG
    · refine ⟨[], m, ?_, cm, (fun j hj => by cases hj), ?_⟩
      · simp only [Physmem_t.setHead, Chain]; exact hn
      · intro j pgj hj hpj
        exact hr j pgj (hj.imp (fun h => by cases h) id) hpj
    · refine ⟨idx :: l, m, ?_, cm, ?_, ?_⟩
      · show Chain (phys.pgs.set idx ⟨0, phys.freei⟩) idx (idx :: l)
        unfold Chain
        exact ⟨rfl, hn, _, hnew, cl⟩
      · intro j hj
        rcases List.mem_cons.mp hj with e | h
        · rw [e]; exact hm
        · exact hd j h
      · intro j pgj hj hpj
        by_cases hji : j = idx
        · subst hji
          have hpj' : (phys.pgs.set j ⟨0, phys.freei⟩)[j]? = some pgj := hpj
          rw [show (phys.pgs.set j ⟨0, phys.freei⟩)[j]? = some ⟨0, phys.freei⟩ from hnew] at hpj'
          cases hpj'
          rfl
        · refine hr j pgj ?_ hpj
          rcases hj with h | h
          · rcases List.mem_cons.mp h with e | h'
            · exact absurd e hji
            · exact Or.inl h'
          · exact Or.inr h
  · by_cases hn : idx = NOPG
    · refine ⟨l, [], cl, ?_, (fun j _ hj => by cases hj), ?_⟩
      · simp only [Physmem_t.setHead, Chain]; exact hn
      · intro j pgj hj hpj
        exact hr j pgj (hj.imp id (fun h => by cases h)) hpj
    · refine ⟨l, idx :: m, cl, ?_, ?_, ?_⟩
      · show Chain (phys.pgs.set idx ⟨0, phys.pmaps⟩) idx (idx :: m)
        unfold Chain
        exact ⟨rfl, hn, _, hnew, cm⟩
      · intro j hj hjm
        rcases List.mem_cons.mp hjm with e | h
        · rw [e] at hj; exact hl hj
        · exact hd j hj h
      · intro j pgj hj hpj
        by_cases hji : j = idx
        · subst hji
          have hpj' : (phys.pgs.set j ⟨0, phys.pmaps⟩)[j]? = some pgj := hpj
          rw [show (phys.pgs.set j ⟨0, phys.pmaps⟩)[j]? = some ⟨0, phys.pmaps⟩ from hnew] at hpj'
          cases hpj'
          rfl
        · refine hr j pgj ?_ hpj
          rcases hj with h | h
          · exact Or.inl h
          · rcases List.mem_cons.mp h with e | h'
            · exact absurd e hji
            · exact Or.inr h'

theorem WellFormed_notin {phys : Physmem_t} {l m : List Nat} (hwf : WellFormed phys l m)
    {idx : Nat} {pg : Physpg_t} (hpg : phys.pgs[idx]? = some pg) (hrc : pg.refcnt ≠ 0) :
    idx ∉ l ∧ idx ∉ m :=
  ⟨fun h => hrc (hwf.2.2.2 idx pg (Or.inl h) hpg), fun h => hrc (hwf.2.2.2 idx pg (Or.inr h) hpg)⟩

theorem WellFormed_put {phys s : Physmem_t} {l m : List Nat} {fl : Flist} {p : Nat}
    (hwf : WellFormed phys l m) (h : _phys_put phys fl p = .ret () s) :
    ∃ l1 m1, WellFormed s l1 m1 := by
  unfold _phys_put at h
  cases hq : _refdec phys p with
  | fatal e s1 => rw [hq] at h; cases h
  | ret r s1 =>
    obtain ⟨add, idx⟩ := r
    obtain ⟨pg, h1, h2, hrc, _, hadd, hs1⟩ := _refdec_ret hq
    obtain ⟨hl, hm⟩ := WellFormed_notin hwf h2 hrc
    have hi : idx < phys.pgs.length := _refaddr_lt h1
    rw [hq] at h
    simp only at h
    cases add
    · simp only [Bool.false_eq_true, if_false] at h
      cases h
      rw [hs1]
      exact ⟨l, m, WellFormed_set hwf idx _ hl hm⟩
    · have hw : wrap32 (pg.refcnt + -1) = 0 := by simpa using hadd.symm
      rw [hw] at hs1
      subst hs1
      have hi' : idx < (phys.pgs.set idx ⟨0, pg.nexti⟩).length := by
        rw [List.length_set]; exact hi
      simp only [if_true, hi', setNexti_set _ _ _ _ hi] at h
      cases h
      have hp := WellFormed_push hwf fl idx hi hl hm
      cases fl <;> exact hp

theorem WellFormed_Refdown {phys s : Physmem_t} {l m : List Nat} {p : Nat} {b : Bool}
    (hwf : WellFormed phys l m) (h : Refdown phys p = .ret b s) :
    ∃ l1 m1, WellFormed s l1 m1 := by
  unfold Refdown at h
  cases hq : _refdec phys p with
  | fatal e s1 => rw [hq] at h; cases h
  | ret r s1 =>
    obtain ⟨add, idx⟩ := r
    obtain ⟨pg, h1, h2, hrc, _, hadd, hs1⟩ := _refdec_ret hq
    obtain ⟨hl, hm⟩ := WellFormed_notin hwf h2 hrc
    have hi : idx < phys.pgs.length := _refaddr_lt h1
    rw [hq] at h
    simp only at h
    cases add
    · simp only [Bool.false_eq_true, if_false] at h
      cases h
      rw [hs1]
      exact ⟨l, m, WellFormed_set hwf idx _ hl hm⟩
    · have hw : wrap32 (pg.refcnt + -1) = 0 := by simpa using hadd.symm
      rw [hw] at hs1
      subst hs1
      have hi' : idx < (phys.pgs.set idx ⟨0, pg.nexti⟩).length := by
        rw [List.length_set]; exact hi
      simp only [if_true, _reffree, hi', setNexti_set _ _ _ _ hi] at h
      cases h
      exact WellFormed_push hwf .freei idx hi hl hm

/-- C18: from a state in which the two free lists are terminated (hence
acyclic) chains `l` and `m` that share no frame and hold only frames of
refcount `0`, every operation that returns normally leaves a state with the
same three properties: `Refpg_new`, `Refpg_new_nozero`, `Pmap_new`, `Refdown`,
`Dec_pmap`, and `Refcnt` / `Refup` applied to a frame that is on neither
list. -/
theorem free_lists_wellformed (w : World) (l m : List Nat) (hwf : WellFormed w.Physmem l m) :
    (∀ r s, Refpg_new w = .ret r s → ∃ l1 m1, WellFormed s.Physmem l1 m1) ∧
    (∀ r s, Refpg_new_nozero w.Physmem = .ret r s → ∃ l1 m1, WellFormed s l1 m1) ∧
    (∀ r s, Pmap_new w = .ret r s → ∃ l1 m1, WellFormed s.Physmem l1 m1) ∧
    (∀ p b s, Refdown w.Physmem p = .ret b s → ∃ l1 m1, WellFormed s l1 m1) ∧
    (∀ p s, Dec_pmap w.Physmem p = .ret () s → ∃ l1 m1, WellFormed s l1 m1) ∧
    (∀ p c s idx, _refaddr w.Physmem p = .ok idx → idx ∉ l → idx ∉ m →
      Refcnt w.Physmem p = .ret c s → WellFormed s l m) ∧
    (∀ p s idx, _refaddr w.Physmem p = .ok idx → idx ∉ l → idx ∉ m →
      Refup w.Physmem p = .ret () s → WellFormed s l m) := by
  have hzero : ∀ r s, Refpg_new w = .ret r s → ∃ l1 m1, WellFormed s.Physmem l1 m1 := by
    intro r s h
    have h1 := Refpg_new_ret h
    rw [Refpg_new_nozero_eq] at h1
    exact WellFormed_pop hwf h1
  refine ⟨hzero, ?_, ?_, ?_, ?_, ?_, ?_⟩
  · intro r s h
    rw [Refpg_new_nozero_eq] at h
    exact WellFormed_pop hwf h
  · intro r s h
    unfold Pmap_new at h
    cases hq : _phys_new w.Physmem .pmaps with
    | fatal e s1 => rw [hq] at h; cases h
    | ret r1 s1 =>
      obtain ⟨a, b, ok⟩ := r1
      rw [hq] at h
      cases ok
      · obtain ⟨_, _, _, _, hs⟩ := _phys_new_ret_false hq
        subst hs
        simp only [Bool.false_eq_true, if_false] at h
        exact hzero r s h
      · simp only [if_true] at h
        cases h
        exact WellFormed_pop hwf hq
  · intro p b s h
    exact WellFormed_Refdown hwf h
  · intro p s h
    exact WellFormed_put hwf h
  · intro p c s idx ha hl hm h
    obtain ⟨idx1, pg, ha1, _, hs⟩ := Refcnt_ret h
    rw [ha] at ha1
    cases ha1
    rw [hs]
    exact WellFormed_set hwf idx _ hl hm
  · intro p s idx ha hl hm h
    obtain ⟨idx1, pg, ha1, _, _, hs⟩ := Refup_ret h
    rw [ha] at ha1
    cases ha1
    rw [hs]
    exact WellFormed_set hwf idx _ hl hm

theorem free_lists_wellformed_witness :
    WellFormed ⟨[⟨0, 2⟩, ⟨1, 7⟩, ⟨0, NOPG⟩, ⟨0, NOPG⟩], 16, 0, 3, true, 0x44 * 2 ^ 39⟩ [0, 2] [3] ∧
    Refdown ⟨[⟨0, 2⟩, ⟨1, 7⟩, ⟨0, NOPG⟩, ⟨0, NOPG⟩], 16, 0, 3, true, 0x44 * 2 ^ 39⟩ 0x11234 =
      .ret true ⟨[⟨0, 2⟩, ⟨0, 0⟩, ⟨0, NOPG⟩, ⟨0, NOPG⟩], 16, 1, 3, true, 0x44 * 2 ^ 39⟩ ∧
    ∃ l1 m1,
      WellFormed ⟨[⟨0, 2⟩, ⟨0, 0⟩, ⟨0, NOPG⟩, ⟨0, NOPG⟩], 16, 1, 3, true, 0x44 * 2 ^ 39⟩ l1 m1 :=
  have hwf : WellFormed ⟨[⟨0, 2⟩, ⟨1, 7⟩, ⟨0, NOPG⟩, ⟨0, NOPG⟩], 16, 0, 3, true, 0x44 * 2 ^ 39⟩
      [0, 2] [3] := by
    refine ⟨by simp [Chain, NOPG], by simp [Chain, NOPG], by decide, ?_⟩
    intro i pg hi hp
    have hi' : (i = 0 ∨ i = 2) ∨ i = 3 := by simpa using hi
    rcases hi' with (rfl | rfl) | rfl <;> simp at hp <;> rw [← hp]
  ⟨hwf, by rfl,
    (free_lists_wellformed
      ⟨⟨[⟨0, 2⟩, ⟨1, 7⟩, ⟨0, NOPG⟩, ⟨0, NOPG⟩], 16, 0, 3, true, 0x44 * 2 ^ 39⟩, 0, fun _ _ => 0⟩
      [0, 2] [3] hwf).2.2.2.1 0x11234 true _ (by rfl)⟩


/-! ## Page-table accounting: properties -/

theorem loop_zeros (call : Nat → Option (Except String Int)) (n : Nat) (ret : Int) :
    _pmcount_loop call (List.replicate n 0) ret = some (.ok ret) := by
  induction n with
  | zero => rfl
  | succ n ih =>
    rw [List.replicate_succ, _pmcount_loop, if_neg (by decide)]
    exact ih

theorem map_finRange_single (n : Nat) (f : Fin (n + 1) → Nat) (h : ∀ i, i ≠ 0 → f i = 0) :
    (List.finRange (n + 1)).map f = f 0 :: List.replicate n 0 := by
  rw [List.finRange_succ_eq_map, List.map_cons, List.map_map]
  congr 1
  rw [List.eq_replicate_iff]
  refine ⟨by simp, ?_⟩
  intro b hb
  rw [List.mem_map] at hb
  obtain ⟨i, _, rfl⟩ := hb
  exact h i.succ (Fin.succ_ne_zero i)

theorem pg2pmap_single (pg : Pg_t) (h : ∀ i : Fin 512, i ≠ 0 → pg i = 0) :
    pg2pmap pg = Int.toNat (pg 0 % 2 ^ 64) :: List.replicate 511 0 := by
  have := map_finRange_single 511 (fun i => Int.toNat (pg i % 2 ^ 64))
    (fun i hi => by simp only [h i hi]; rfl)
  exact this

theorem loop_cons_zeros (call : Nat → Option (Except String Int)) (e n : Nat) (ret : Int) :
    _pmcount_loop call (e :: List.replicate n 0) ret =
      if e &&& PTE_U ≠ 0 ∧ e &&& PTE_P ≠ 0 then
        match call (e &&& PTE_ADDR) with
        | none => none
        | some (.error x) => some (.error x)
        | some (.ok c) => some (.ok (wrap64 (ret + wrap64 (1 + c))))
      else some (.ok ret) := by
  rw [_pmcount_loop]
  by_cases hpu : e &&& PTE_U ≠ 0 ∧ e &&& PTE_P ≠ 0
  · rw [if_pos hpu, if_pos hpu]
    cases call (e &&& PTE_ADDR) with
    | none => rfl
    | some r =>
      cases r with
      | error x => rfl
      | ok c => exact loop_zeros call n _
  · rw [if_neg hpu, if_neg hpu]
    exact loop_zeros call n ret

/-- The walk of a table whose only non-zero entry is entry `0`, holding `e`. -/
theorem _pmcount_single (w : World) (fuel pml4 : Nat) (lev : Int) (v e : Nat)
    (hv : Dmap w.Physmem pml4 = .ok v) (hv0 : v ≠ 0)
    (h : ∀ i : Fin 512, i ≠ 0 → w.ram v i = 0)
    (he : Int.toNat (w.ram v 0 % 2 ^ 64) = e) :
    _pmcount w (fuel + 1) pml4 lev =
      if e &&& PTE_U ≠ 0 ∧ e &&& PTE_P ≠ 0 then
        match _pmcount w fuel (e &&& PTE_ADDR) (wrap64 (lev - 1)) with
        | none => none
        | some (.error x) => some (.error x)
        | some (.ok c) => some (.ok (wrap64 (0 + wrap64 (1 + c))))
      else some (.ok 0) := by
  rw [_pmcount, hv]
  show (if v = 0 then _ else _pmcount_loop _ (pg2pmap (w.ram v)) 0) = _
  rw [if_neg hv0, pg2pmap_single _ h, he, loop_cons_zeros]

theorem chainMem_rest (a : Nat) (i : Fin 512) (hi : i ≠ 0) : chainMem a i = 0 := by
  simp only [chainMem, hi, if_false]

theorem loopMem_rest (a : Nat) (i : Fin 512) (hi : i ≠ 0) : loopMem a i = 0 := by
  simp only [loopMem, hi, if_false]

theorem rootMem_rest (a : Nat) (i : Fin 512) (hi : i ≠ 0) : rootMem a i = 0 := by
  simp only [rootMem, hi, if_false]

theorem chain_walk (fuel : Nat) (lev : Int) :
    _pmcount ⟨⟨[], 0, NOPG, NOPG, true, 0x44 * 2 ^ 39⟩, 0, chainMem⟩ (fuel + 1) 0x3000 lev
      = some (.ok 0) ∧
    _pmcount ⟨⟨[], 0, NOPG, NOPG, true, 0x44 * 2 ^ 39⟩, 0, chainMem⟩ (fuel + 2) 0x2000 lev
      = some (.ok 1) ∧
    _pmcount ⟨⟨[], 0, NOPG, NOPG, true, 0x44 * 2 ^ 39⟩, 0, chainMem⟩ (fuel + 3) 0x1000 lev
      = some (.ok 2) ∧
    _pmcount ⟨⟨[], 0, NOPG, NOPG, true, 0x44 * 2 ^ 39⟩, 0, chainMem⟩ (fuel + 4) 0 lev
      = some (.ok 3) := by
  have h3 : ∀ lev, _pmcount ⟨⟨[], 0, NOPG, NOPG, true, 0x44 * 2 ^ 39⟩, 0, chainMem⟩
      (fuel + 1) 0x3000 lev = some (.ok 0) := by
    intro lev
    rw [_pmcount_single _ fuel 0x3000 lev (0x44 * 2 ^ 39 + 0x3000) 0
      (by rw [Dmap_ok _ _ (by norm_num)]; rfl) (by norm_num)
      (fun i hi => chainMem_rest _ i hi) (by decide)]
    rfl
  have h2 : ∀ lev, _pmcount ⟨⟨[], 0, NOPG, NOPG, true, 0x44 * 2 ^ 39⟩, 0, chainMem⟩
      (fuel + 2) 0x2000 lev = some (.ok 1) := by
    intro lev
    rw [_pmcount_single _ (fuel + 1) 0x2000 lev (0x44 * 2 ^ 39 + 0x2000) 0x3005
      (by rw [Dmap_ok _ _ (by norm_num)]; rfl) (by norm_num)
      (fun i hi => chainMem_rest _ i hi) (by decide)]
    rw [if_pos (by decide), show 0x3005 &&& PTE_ADDR = 0x3000 by decide, h3]
    rfl
  have h1 : ∀ lev, _pmcount ⟨⟨[], 0, NOPG, NOPG, true, 0x44 * 2 ^ 39⟩, 0, chainMem⟩
      (fuel + 3) 0x1000 lev = some (.ok 2) := by
    intro lev
    rw [_pmcount_single _ (fuel + 2) 0x1000 lev (0x44 * 2 ^ 39 + 0x1000) 0x2005
      (by rw [Dmap_ok _ _ (by norm_num)]; rfl) (by norm_num)
      (fun i hi => chainMem_rest _ i hi) (by decide)]
    rw [if_pos (by decide), show 0x2005 &&& PTE_ADDR = 0x2000 by decide, h2]
    rfl
  refine ⟨h3 lev, h2 lev, h1 lev, ?_⟩
  rw [_pmcount_single _ (fuel + 3) 0 lev (0x44 * 2 ^ 39) 0x1005
    (by rw [Dmap_ok _ _ (by norm_num)]; rfl) (by norm_num)
      (fun i hi => chainMem_rest _ i hi) (by decide)]
  rw [if_pos (by decide), show 0x1005 &&& PTE_ADDR = 0x1000 by decide, h1]
  rfl

theorem puCount_single (pg : Pg_t) (h : ∀ i : Fin 512, i ≠ 0 → pg i = 0) :
    puCount (pg2pmap pg) =
      if Int.toNat (pg 0 % 2 ^ 64) &&& PTE_U ≠ 0 ∧ Int.toNat (pg 0 % 2 ^ 64) &&& PTE_P ≠ 0
      then 1 else 0 := by
  have hz : List.countP (fun pte => decide (pte &&& PTE_U ≠ 0 ∧ pte &&& PTE_P ≠ 0))
      (List.replicate 511 0) = 0 := by
    rw [List.countP_eq_zero]
    intro a ha
    rw [List.eq_of_mem_replicate ha]
    decide
  rw [pg2pmap_single pg h, puCount, List.countP_cons, hz]
  by_cases hpu : Int.toNat (pg 0 % 2 ^ 64) &&& PTE_U ≠ 0 ∧ Int.toNat (pg 0 % 2 ^ 64) &&& PTE_P ≠ 0
  · rw [if_pos hpu, if_pos (decide_eq_true hpu)]
  · rw [if_neg hpu, if_neg (by rw [decide_eq_false hpu]; exact Bool.false_ne_true)]

/-- The walk never inspects its depth argument. -/
theorem _pmcount_lev_irrelevant (w : World) :
    ∀ (fuel pml4 : Nat) (lev lev1 : Int), _pmcount w fuel pml4 lev = _pmcount w fuel pml4 lev1
  | 0, _, _, _ => rfl
  | fuel + 1, pml4, lev, lev1 => by
    rw [_pmcount, _pmcount]
    cases Dmap w.Physmem pml4 with
    | error e => rfl
    | ok v =>
      have hf : (fun a => _pmcount w fuel a (wrap64 (lev - 1)))
          = fun a => _pmcount w fuel a (wrap64 (lev1 - 1)) :=
        funext fun a => _pmcount_lev_irrelevant w fuel a _ _
      simp only [hf]

/-- C14 (the code at the failing input): in the memory `chainMem` the table at
physical address `0` has exactly one present user entry (`k = 1`), and so has
the table that entry points to (`m = 1`); yet `_pmcount` from depth `0`, and
likewise from depth `1`, returns `3`: it keeps descending through the entries
of the pages below depth `0`. -/
theorem _pmcount_descends_below_zero :
    puCount (pg2pmap (chainMem (0x44 * 2 ^ 39))) = 1 ∧
    puCount (pg2pmap (chainMem (0x44 * 2 ^ 39 + 0x1000))) = 1 ∧
    (∀ fuel, _pmcount ⟨⟨[], 0, NOPG, NOPG, true, 0x44 * 2 ^ 39⟩, 0, chainMem⟩ (fuel + 4) 0 0
      = some (.ok 3)) ∧
    (∀ fuel, _pmcount ⟨⟨[], 0, NOPG, NOPG, true, 0x44 * 2 ^ 39⟩, 0, chainMem⟩ (fuel + 4) 0 1
      = some (.ok 3)) := by
  refine ⟨?_, ?_, fun fuel => (chain_walk fuel 0).2.2.2, fun fuel => (chain_walk fuel 1).2.2.2⟩
  · rw [puCount_single _ (fun i hi => chainMem_rest _ i hi)]
    decide
  · rw [puCount_single _ (fun i hi => chainMem_rest _ i hi)]
    decide

/-- C15 (the code at the failing input): in the memory `loopMem`, where a
present user entry of the table at physical address `0` points back to that
table, the walk from root `0` does not return, whatever the starting depth and
however deep the recursion is allowed to go. -/
theorem _pmcount_self_loop (fuel : Nat) :
    ∀ lev : Int,
      _pmcount ⟨⟨[], 0, NOPG, NOPG, true, 0x44 * 2 ^ 39⟩, 0, loopMem⟩ fuel 0 lev = none := by
  induction fuel with
  | zero =>
    intro lev
    rfl
  | succ fuel ih =>
    intro lev
    rw [_pmcount_single _ fuel 0 lev (0x44 * 2 ^ 39) 0x5
      (by rw [Dmap_ok _ _ (by norm_num)]; rfl) (by norm_num)
      (fun i hi => loopMem_rest _ i hi) (by decide)]
    rw [if_pos (by decide), show 0x5 &&& PTE_ADDR = 0 by decide, ih]

/-! ## `Pgcount` -/

theorem wrap64_id (x : Int) (h1 : -2 ^ 63 ≤ x) (h2 : x < 2 ^ 63) : wrap64 x = x := by
  unfold wrap64; omega

theorem wrap64_add (a b : Int) : wrap64 (wrap64 a + b) = wrap64 (a + b) := by
  unfold wrap64; omega

theorem frameaddr_eq (phys : Physmem_t) (i : Nat) :
    ((i + phys.startn) % 2 ^ 32 * 2 ^ PGSHIFT) % 2 ^ 64 = frameaddr phys i := by
  unfold frameaddr PGSHIFT; omega

theorem pmapcount_loop_chain (w : World) (wfuel : Nat) (cnt : Nat → Int) :
    ∀ {m : List Nat} {ni : Nat} (fuel : Nat) (c : Int),
      Chain w.Physmem.pgs ni m → m.length < fuel →
      (∀ i ∈ m, _pmcount w wfuel (frameaddr w.Physmem i) 4 = some (.ok (cnt i))) →
      pmapcount_loop w wfuel fuel ni (wrap64 c) = some (.ok (wrap64 (c + (m.map cnt).sum)))
  | [], ni, fuel, c, hc, hf, _ => by
    simp only [Chain] at hc
    obtain ⟨f, rfl⟩ : ∃ f, fuel = f + 1 := ⟨fuel - 1, by simp at hf; omega⟩
    simp [pmapcount_loop, hc]
  | i :: m, ni, fuel, c, hc, hf, hw => by
    simp only [Chain] at hc
    obtain ⟨e, hne, pg, hp, cc⟩ := hc
    obtain ⟨f, rfl⟩ : ∃ f, fuel = f + 1 := ⟨fuel - 1, by simp at hf; omega⟩
    subst e
    have ih := pmapcount_loop_chain w wfuel cnt f (c + cnt ni) cc (by simp at hf; omega)
      (fun j hj => hw j (List.mem_cons_of_mem _ hj))
    simp only [pmapcount_loop, hne, ne_eq, not_false_eq_true, if_true, frameaddr_eq,
      hw ni (List.mem_cons_self _ _), hp, wrap64_add, ih, List.map_cons, List.sum_cons,
      add_assoc]

theorem rootMem_root : Int.toNat (rootMem (0x44 * 2 ^ 39) 0 % 2 ^ 64) = 0x1005 := by
  have h : rootMem (0x44 * 2 ^ 39) 0 = 0x1005 := by simp [rootMem]
  rw [h]; decide

theorem rootMem_child : Int.toNat (rootMem (0x44 * 2 ^ 39 + 0x1000) 0 % 2 ^ 64) = 0 := by
  have h : rootMem (0x44 * 2 ^ 39 + 0x1000) 0 = 0 := by simp [rootMem]
  rw [h]; decide

theorem Dmap_at (phys : Physmem_t) (p v : Nat) (hb : phys._vdirect = 0x44 * 2 ^ 39)
    (hp : p < 2 ^ 39) (hv : v = 0x44 * 2 ^ 39 + 4096 * (p / 4096)) : Dmap phys p = .ok v := by
  rw [Dmap_ok _ _ hp, hb, hv]
  congr 1
  omega

/-- In `rootMem` the walk of the root at physical address `0` counts its one
present user entry and nothing below it. -/
theorem root_walk (pgs : List Physpg_t) (f p z : Nat) :
    _pmcount ⟨⟨pgs, 0, f, p, true, 0x44 * 2 ^ 39⟩, z, rootMem⟩ 2 0 4 = some (.ok 1) := by
  have hc : ∀ lev, _pmcount ⟨⟨pgs, 0, f, p, true, 0x44 * 2 ^ 39⟩, z, rootMem⟩ 1 0x1000 lev
      = some (.ok 0) := by
    intro lev
    rw [_pmcount_single _ 0 0x1000 lev (0x44 * 2 ^ 39 + 0x1000) 0
      (Dmap_at _ _ _ rfl (by norm_num) (by norm_num)) (by norm_num)
      (fun i hi => rootMem_rest _ i hi)
      rootMem_child]
    rw [if_neg (by decide)]
  rw [_pmcount_single _ 1 0 4 (0x44 * 2 ^ 39) 0x1005
    (Dmap_at _ _ _ rfl (by norm_num) (by norm_num)) (by norm_num)
      (fun i hi => rootMem_rest _ i hi)
    rootMem_root]
  rw [if_pos (by decide), show 0x1005 &&& PTE_ADDR = 0x1000 by decide, hc]
  rfl

/-- C16 (as stated) fails: `Pmap_new` hands out the root at physical address
`0`, whose table has one present user entry, so that root is outstanding and
its walk from depth `4` counts `1`; but `Pgcount` in that state returns `0` as
its second result, the page-table-root free list being empty. -/
theorem Pgcount_outstanding_counterexample :
    Pmap_new ⟨⟨[⟨0, NOPG⟩, ⟨1, NOPG⟩], 0, NOPG, 0, true, 0x44 * 2 ^ 39⟩, 0, rootMem⟩ =
      .ret (0x44 * 2 ^ 39, 0, true)
        ⟨⟨[⟨0, NOPG⟩, ⟨1, NOPG⟩], 0, NOPG, NOPG, true, 0x44 * 2 ^ 39⟩, 0, rootMem⟩ ∧
    _pmcount ⟨⟨[⟨0, NOPG⟩, ⟨1, NOPG⟩], 0, NOPG, NOPG, true, 0x44 * 2 ^ 39⟩, 0, rootMem⟩ 2 0 4 =
      some (.ok 1) ∧
    Pgcount ⟨⟨[⟨0, NOPG⟩, ⟨1, NOPG⟩], 0, NOPG, NOPG, true, 0x44 * 2 ^ 39⟩, 0, rootMem⟩ 2 =
      some (.ret (0, 0)
        ⟨⟨[⟨0, NOPG⟩, ⟨1, NOPG⟩], 0, NOPG, NOPG, true, 0x44 * 2 ^ 39⟩, 0, rootMem⟩) := by
  exact ⟨by rfl, root_walk _ _ _ _, by rfl⟩

/-- C16 (amended): when the general free list is the terminated chain `l`, the
page-table-root free list is the terminated chain `m`, and the walk from depth
`4` of every frame `i` on `m` returns the count `cnt i`, `Pgcount` returns
normally, its first result is the number of frames on the general free list,
its second result is the sum of the walker's counts over the frames on the
page-table-root free list (roots released by `Dec_pmap` and not handed out
again), as a 64-bit `int`, and the state is unchanged. -/
theorem Pgcount_spec (w : World) (fuel : Nat) (l m : List Nat) (cnt : Nat → Int)
    (hl : Chain w.Physmem.pgs w.Physmem.freei l) (hm : Chain w.Physmem.pgs w.Physmem.pmaps m)
    (hfl : l.length < fuel) (hfm : m.length < fuel) (h63 : l.length < 2 ^ 63)
    (hc : ∀ i ∈ m, _pmcount w fuel (frameaddr w.Physmem i) 4 = some (.ok (cnt i))) :
    Pgcount w fuel = some (.ret ((l.length : Int), wrap64 ((m.map cnt).sum)) w) := by
  have h1 := Pgcount_r1_chain fuel 0 hl hfl
  have h2 := pmapcount_loop_chain w fuel cnt fuel 0 hm hfm hc
  have hz : wrap64 0 = 0 := by decide
  rw [hz, Int.zero_add] at h2
  have hr : wrap64 ((0 + l.length : Nat) : Int) = (l.length : Int) := by
    rw [Nat.zero_add]
    exact wrap64_id _ (by omega) (by omega)
  simp only [Pgcount, h1, pmapcount, h2, hr]


theorem Pgcount_spec_witness :
    (Chain [⟨0, NOPG⟩, ⟨0, NOPG⟩] 1 [1] ∧ Chain [⟨0, NOPG⟩, ⟨0, NOPG⟩] 0 [0]) ∧
    Pgcount ⟨⟨[⟨0, NOPG⟩, ⟨0, NOPG⟩], 0, 1, 0, true, 0x44 * 2 ^ 39⟩, 0, rootMem⟩ 2 =
      some (.ret (1, 1) ⟨⟨[⟨0, NOPG⟩, ⟨0, NOPG⟩], 0, 1, 0, true, 0x44 * 2 ^ 39⟩, 0, rootMem⟩) := by
  have h1 : Chain [⟨0, NOPG⟩, ⟨0, NOPG⟩] 1 [1] := by simp [Chain, NOPG]
  have h0 : Chain [⟨0, NOPG⟩, ⟨0, NOPG⟩] 0 [0] := by simp [Chain, NOPG]
  have hf : frameaddr ⟨[⟨0, NOPG⟩, ⟨0, NOPG⟩], 0, 1, 0, true, 0x44 * 2 ^ 39⟩ 0 = 0 := by decide
  have h := Pgcount_spec ⟨⟨[⟨0, NOPG⟩, ⟨0, NOPG⟩], 0, 1, 0, true, 0x44 * 2 ^ 39⟩, 0, rootMem⟩
    2 [1] [0] (fun _ => 1) h1 h0 (by decide) (by decide) (by decide)
    (fun i hi => by
      have hi0 : i = 0 := by simpa using hi
      rw [hi0, hf]
      exact root_walk _ _ _ _)
  refine ⟨⟨h1, h0⟩, ?_⟩
  rw [h]
  rfl

end Mem
